import Mathlib

/-! A shallow embedding of the recursive copy engine (`copy.go`, `wrappers.go`).

The Go functions `Copy`, `switchboard`, `copyNextOrSkip`, `fcopy`, `dcopy`,
`onDirExists`, `onsymlink`, `lcopy` and `fclose` are translated to Lean functions that
pass an explicit `World` (a filesystem plus the trace of every operation performed).

Conventions of the embedding.

* A Go `error` is an `Option Err` (`none` is `nil`); a Go `(value, error)` pair is an
  `Except Err value`.
* A path is the list of its components, absolute and clean: `filepath.Join dir name` appends
  a component and `filepath.Dir` drops the last one.  Symbolic-link targets are such paths
  too; relative targets are outside the model.
* The operating system is a finite table from paths to nodes together with a fault oracle
  `Faults`, which may make any primitive fail with any error at any point of the history.
  A primitive that would have to follow a symbolic link is outside the model and fails
  with `Err.ELOOP`.  A primitive that fails leaves the filesystem unchanged (no partial
  writes); it is still recorded in the trace.
* The mutual recursion `switchboard → onsymlink/dcopy → copyNextOrSkip → switchboard` is
  tied with a fuel counter: `none` as a `Res` means that the recursion depth was exhausted
  (the Go program would still be running), never that an error occurred.
* Policy hooks (`Skip`, `OnSymlink`, `OnDirExists`, `WrapReader`) are functions; the
  permission hook and the deferred action it returns may change the filesystem.
-/

namespace GoCopy

/-! ## Paths, errors, file modes -/

abbrev Path := List String

abbrev Byte := Nat

/-- The `filepath.Join dir name` of a clean directory path and a file name. -/
def Join (dir : Path) (name : String) : Path := dir ++ [name]

/-- The `filepath.Dir` of a clean path. -/
def Dir (p : Path) : Path := p.dropLast

/-- The `filepath.Base` of a clean path. -/
def Base (p : Path) : String := p.getLast?.getD "/"

/-- The `filepath.Rel base targ` of two clean absolute paths: climb out of what is left of
`base` after the common part, then descend into what is left of `targ`. -/
def Rel : Path → Path → Path
  | b :: base, t :: targ => if b = t then Rel base targ else (b :: base).map (fun _ => "..") ++ (t :: targ)
  | base, targ => base.map (fun _ => "..") ++ targ

inductive Err
  | ENOENT
  | EEXIST
  | ENOTDIR
  | EISDIR
  | EINVAL
  | EBADF
  | ELOOP
  | other (code : Nat)
  deriving DecidableEq, Repr

/-- The `os.IsNotExist` test. -/
def IsNotExist (e : Err) : Bool := decide (e = Err.ENOENT)

def ModeDir : Nat := 2147483648

def ModeSymlink : Nat := 134217728

def ModeDevice : Nat := 67108864

def ModeNamedPipe : Nat := 33554432

def ModePerm : Nat := 511

/-- The part of `os.FileInfo` the engine looks at. -/
structure FileInfo where
  Name : String
  Mode : Nat
  deriving DecidableEq, Repr

/-- The `IsDir` method of a file info, which is `Mode().IsDir()`. -/
def FileInfo.IsDir (info : FileInfo) : Bool := decide (info.Mode &&& ModeDir ≠ 0)

/-! ## The filesystem -/

inductive Node
  | file (perm : Nat) (data : List Byte)
  | dir (perm : Nat)
  | symlink (target : Path)
  | pipe (perm : Nat)
  | device (perm : Nat)
  deriving DecidableEq, Repr

/-- The mode `Lstat` reports for a node: its type bit and its permission bits. -/
def Node.mode : Node → Nat
  | .file perm _ => perm &&& ModePerm
  | .dir perm => ModeDir ||| (perm &&& ModePerm)
  | .symlink _ => ModeSymlink ||| ModePerm
  | .pipe perm => ModeNamedPipe ||| (perm &&& ModePerm)
  | .device perm => ModeDevice ||| (perm &&& ModePerm)

/-- A filesystem: a table from paths to nodes, the first entry for a path being the live one. -/
abbrev FS := List (Path × Node)

def FS.get : FS → Path → Option Node
  | [], _ => none
  | (q, n) :: rest, p => if q = p then some n else FS.get rest p

def FS.set (fs : FS) (p : Path) (n : Node) : FS := (p, n) :: fs

/-- Remove `p` and everything below it. -/
def FS.removeAll (fs : FS) (p : Path) : FS := fs.filter (fun e => decide (¬ p <+: e.1))

/-- The error for a missing path: `ENOTDIR` when something on the way is not a directory. -/
def FS.missingErr (fs : FS) (p : Path) : Err :=
  if (p.inits.dropLast).all (fun q =>
      match fs.get q with
      | some (.dir _) => true
      | none => true
      | _ => false)
  then Err.ENOENT else Err.ENOTDIR

def lexLE : List Nat → List Nat → Bool
  | [], _ => true
  | _ :: _, [] => false
  | a :: as, b :: bs => decide (a < b) || (a == b && lexLE as bs)

/-- File names compare as their code points do (the order `ioutil.ReadDir` sorts by). -/
def nameLE (a b : String) : Prop := lexLE (a.data.map Char.toNat) (b.data.map Char.toNat) = true

instance : DecidableRel nameLE := fun a b => by unfold nameLE; infer_instance

/-- The names directly below `p`, sorted. -/
def FS.names (fs : FS) (p : Path) : List String :=
  ((fs.filterMap (fun e => if e.1 ≠ [] ∧ e.1.dropLast = p then e.1.getLast? else none)).dedup).insertionSort nameLE

/-- The listing of directory `p`: one file info per name, as `Lstat` would give it. -/
def FS.list (fs : FS) (p : Path) : List FileInfo :=
  (fs.names p).filterMap (fun n => (fs.get (Join p n)).map (fun nd => FileInfo.mk n nd.mode))

def FS.ensureDir (fs : FS) (q : Path) (perm : Nat) : Except Err FS :=
  match fs.get q with
  | some (.dir _) => .ok fs
  | none => .ok (fs.set q (.dir perm))
  | some _ => .error Err.ENOTDIR

/-- Create every directory on the way from `pre` down to `pre ++ todo`. -/
def FS.mkdirFrom (perm : Nat) : FS → Path → List String → Except Err FS
  | fs, pre, [] => fs.ensureDir pre perm
  | fs, pre, c :: rest =>
    match fs.ensureDir pre perm with
    | .error e => .error e
    | .ok fs1 => FS.mkdirFrom perm fs1 (pre ++ [c]) rest

def FS.mkdirAll (fs : FS) (p : Path) (perm : Nat) : Except Err FS := FS.mkdirFrom perm fs [] p

/-- The effect of `os.Create`: a fresh empty file, or an existing file truncated. -/
def FS.create (fs : FS) (p : Path) : Except Err FS :=
  match fs.get (Dir p) with
  | some (.dir _) =>
    match fs.get p with
    | none => .ok (fs.set p (.file 438 []))
    | some (.file perm _) => .ok (fs.set p (.file perm []))
    | some (.dir _) => .error Err.EISDIR
    | some (.symlink _) => .error Err.ELOOP
    | some _ => .error Err.EINVAL
  | none => .error (fs.missingErr p)
  | some _ => .error Err.ENOTDIR

def FS.open (fs : FS) (p : Path) : Except Err Path :=
  match fs.get p with
  | some (.file _ _) => .ok p
  | some (.dir _) => .ok p
  | some (.symlink _) => .error Err.ELOOP
  | some _ => .error Err.EINVAL
  | none => .error (fs.missingErr p)

/-- The effect of `io.CopyBuffer dst r` where `r` reads `wrap` of the bytes of `src`:
the bytes are written to `dst` from offset zero. -/
def FS.copyData (fs : FS) (dst src : Path) (wrap : List Byte → List Byte) : Except Err FS :=
  match fs.get src with
  | some (.file _ data) =>
    match fs.get dst with
    | some (.file perm old) => .ok (fs.set dst (.file perm (wrap data ++ old.drop (wrap data).length)))
    | _ => .error Err.EBADF
  | some (.dir _) => .error Err.EISDIR
  | _ => .error Err.EBADF

def FS.stat (fs : FS) (p : Path) : Except Err FileInfo :=
  match fs.get p with
  | some (.symlink _) => .error Err.ELOOP
  | some n => .ok (FileInfo.mk (Base p) n.mode)
  | none => .error (fs.missingErr p)

def FS.lstat (fs : FS) (p : Path) : Except Err FileInfo :=
  match fs.get p with
  | some n => .ok (FileInfo.mk (Base p) n.mode)
  | none => .error (fs.missingErr p)

def FS.readDir (fs : FS) (p : Path) : Except Err (List FileInfo) :=
  match fs.get p with
  | some (.dir _) => .ok (fs.list p)
  | some _ => .error Err.ENOTDIR
  | none => .error (fs.missingErr p)

def FS.readlink (fs : FS) (p : Path) : Except Err Path :=
  match fs.get p with
  | some (.symlink t) => .ok t
  | some _ => .error Err.EINVAL
  | none => .error (fs.missingErr p)

def FS.symlink (fs : FS) (target dest : Path) : Except Err FS :=
  match fs.get (Dir dest) with
  | some (.dir _) =>
    match fs.get dest with
    | none => .ok (fs.set dest (.symlink target))
    | some _ => .error Err.EEXIST
  | none => .error (fs.missingErr dest)
  | some _ => .error Err.ENOTDIR

def FS.chmod (fs : FS) (p : Path) (mode : Nat) : Except Err FS :=
  match fs.get p with
  | some (.file _ data) => .ok (fs.set p (.file mode data))
  | some (.dir _) => .ok (fs.set p (.dir mode))
  | some (.pipe _) => .ok (fs.set p (.pipe mode))
  | some (.device _) => .ok (fs.set p (.device mode))
  | some (.symlink _) => .error Err.ELOOP
  | none => .error (fs.missingErr p)

/-! ## Policies -/

inductive SymlinkAction
  | Deep
  | Shallow
  | Skip
  | other (n : Nat)
  deriving DecidableEq, Repr

inductive DirExistsAction
  | Merge
  | Replace
  | Untouchable
  | other (n : Nat)
  deriving DecidableEq, Repr

/-- The deferred `func(*error)` a permission hook returns: it receives the error reported
so far and the filesystem, and leaves both as it sees fit. -/
abbrev ChmodFunc := Option Err → FS → Option Err × FS

structure Intent where
  src : Path
  dest : Path

/-- The fields of `Options` that `copy.go` reads. `Skip`, `OnDirExists` and `WrapReader`
may be `nil`. -/
structure Options where
  OnSymlink : Path → SymlinkAction
  OnDirExists : Option (Path → Path → DirExistsAction)
  Skip : Option (FileInfo → Path → Path → Except Err Bool)
  PermissionControl : FileInfo → Path → FS → Except Err ChmodFunc × FS
  Sync : Bool
  PreserveTimes : Bool
  PreserveOwner : Bool
  CopyBufferSize : Nat
  WrapReader : Option (List Byte → List Byte)
  FileProgressBar : Bool
  DirProgressBar : Bool
  Specials : Bool
  intent : Intent

/-! ## Worlds and traces -/

inductive PbOp
  | Default (src : Path)
  | ChangeMax (n : Nat)
  | Describe (label : Path)
  | Add
  | Finish
  deriving DecidableEq, Repr

/-- Everything the engine does is recorded: operating-system calls, calls of policy hooks
and of helpers, calls of the progress bar, and a marker for each call of `switchboard`. -/
inductive Op
  | Lstat (p : Path)
  | Stat (p : Path)
  | MkdirAll (p : Path)
  | Create (p : Path)
  | Open (p : Path)
  | CopyBuffer (dst src : Path) (bufSize : Nat)
  | Sync (p : Path)
  | Close (p : Path)
  | ReadDir (p : Path)
  | RemoveAll (p : Path)
  | Readlink (p : Path)
  | Symlink (target dest : Path)
  | Skip (info : FileInfo) (src dest : Path)
  | OnSymlink (src : Path)
  | OnDirExists (src dest : Path)
  | PermissionControl (info : FileInfo) (dest : Path)
  | chmodfunc (dest : Path)
  | preserveOwner (src dest : Path)
  | preserveTimes (dest : Path)
  | preserveLtimes (src dest : Path)
  | pcopy (dest : Path)
  | switchboard (src dest : Path) (info : FileInfo)
  | progress (what : PbOp)
  deriving DecidableEq, Repr

structure World where
  fs : FS
  log : List Op
  deriving DecidableEq, Repr

/-- The fault oracle: given the history and the operation about to run, an error to fail with. -/
abbrev Faults := List Op → Op → Option Err

def World.emit (w : World) (op : Op) : World := World.mk w.fs (w.log ++ [op])

/-- Run one primitive: record it, let the oracle fail it, otherwise apply its effect. -/
def sys {α : Type} (os : Faults) (op : Op) (sem : FS → Except Err (α × FS)) (w : World) :
    Except Err α × World :=
  match os w.log op with
  | some e => (.error e, w.emit op)
  | none =>
    match sem w.fs with
    | .error e => (.error e, w.emit op)
    | .ok (a, fs) => (.ok a, World.mk fs (w.log ++ [op]))

/-- A primitive that only returns an `error`. -/
def sysErr (os : Faults) (op : Op) (sem : FS → Except Err FS) (w : World) : Option Err × World :=
  match os w.log op with
  | some e => (some e, w.emit op)
  | none =>
    match sem w.fs with
    | .error e => (some e, w.emit op)
    | .ok fs => (none, World.mk fs (w.log ++ [op]))

def os_Lstat (os : Faults) (p : Path) (w : World) : Except Err FileInfo × World :=
  sys os (.Lstat p) (fun fs => (fs.lstat p).map (fun i => (i, fs))) w

def os_Stat (os : Faults) (p : Path) (w : World) : Except Err FileInfo × World :=
  sys os (.Stat p) (fun fs => (fs.stat p).map (fun i => (i, fs))) w

def os_MkdirAll (os : Faults) (p : Path) (perm : Nat) (w : World) : Option Err × World :=
  sysErr os (.MkdirAll p) (fun fs => fs.mkdirAll p perm) w

def os_Create (os : Faults) (p : Path) (w : World) : Except Err Path × World :=
  sys os (.Create p) (fun fs => (fs.create p).map (fun fs1 => (p, fs1))) w

def os_Open (os : Faults) (p : Path) (w : World) : Except Err Path × World :=
  sys os (.Open p) (fun fs => (fs.open p).map (fun h => (h, fs))) w

def io_CopyBuffer (os : Faults) (dst src : Path) (wrap : List Byte → List Byte) (bufSize : Nat)
    (w : World) : Option Err × World :=
  sysErr os (.CopyBuffer dst src bufSize) (fun fs => fs.copyData dst src wrap) w

def File_Sync (os : Faults) (f : Path) (w : World) : Option Err × World :=
  sysErr os (.Sync f) (fun fs => .ok fs) w

def File_Close (os : Faults) (f : Path) (w : World) : Option Err × World :=
  sysErr os (.Close f) (fun fs => .ok fs) w

def ioutil_ReadDir (os : Faults) (p : Path) (w : World) : Except Err (List FileInfo) × World :=
  sys os (.ReadDir p) (fun fs => (fs.readDir p).map (fun l => (l, fs))) w

def os_RemoveAll (os : Faults) (p : Path) (w : World) : Option Err × World :=
  sysErr os (.RemoveAll p) (fun fs => .ok (fs.removeAll p)) w

def os_Readlink (os : Faults) (p : Path) (w : World) : Except Err Path × World :=
  sys os (.Readlink p) (fun fs => (fs.readlink p).map (fun t => (t, fs))) w

def os_Symlink (os : Faults) (target dest : Path) (w : World) : Option Err × World :=
  sysErr os (.Symlink target dest) (fun fs => fs.symlink target dest) w

/-! ## Helpers of the repository that are not in `copy.go` -/

/-- Modelled from the spec: `assureOptions`, which is not among the sources. The policy is
resolved once at the top of a copy and records "the original (source, destination) pair of
the top-level call"; every other field is the caller's. -/
def assureOptions (src dest : Path) (opt : Options) : Options :=
  { opt with intent := Intent.mk src dest }

/-- Modelled from the spec: `pcopy`, which is not among the sources: it "creates a
destination pipe with matching permissions; does not copy data through it". -/
def pcopy (os : Faults) (dest : Path) (info : FileInfo) (w : World) : Option Err × World :=
  sysErr os (.pcopy dest) (fun fs =>
    match fs.get (Dir dest) with
    | some (.dir _) =>
      match fs.get dest with
      | none => .ok (fs.set dest (.pipe info.Mode))
      | some _ => .error Err.EEXIST
    | none => .error (fs.missingErr dest)
    | some _ => .error Err.ENOTDIR) w

/-- Modelled from the spec: `preserveOwner`, which is not among the sources: "destination
ownership is set to match the source's owner/group". Ownership is not part of a `Node`, so
the call leaves names and bytes alone; it needs the destination to exist. -/
def preserveOwner (os : Faults) (src dest : Path) (_info : FileInfo) (w : World) : Option Err × World :=
  sysErr os (.preserveOwner src dest) (fun fs =>
    match fs.get dest with
    | some _ => .ok fs
    | none => .error (fs.missingErr dest)) w

/-- Modelled from the spec: `preserveTimes`, which is not among the sources: "destination
access/modification times are set to match the source's". Times are not part of a `Node`. -/
def preserveTimes (os : Faults) (_info : FileInfo) (dest : Path) (w : World) : Option Err × World :=
  sysErr os (.preserveTimes dest) (fun fs =>
    match fs.get dest with
    | some _ => .ok fs
    | none => .error (fs.missingErr dest)) w

/-- Modelled from the spec: `preserveLtimes`, which is not among the sources: it sets
"link-specific (non-dereferencing) timestamps on the new symlink". -/
def preserveLtimes (os : Faults) (src dest : Path) (w : World) : Option Err × World :=
  sysErr os (.preserveLtimes src dest) (fun fs =>
    match fs.get dest with
    | some _ => .ok fs
    | none => .error (fs.missingErr dest)) w

/-- The reader of `WrapReaderPB` (`wrappers.go`): `Read` hands every read to the file and
only reports the count to the bar, so the bytes pass through unchanged. -/
def WrapReaderPB (data : List Byte) : List Byte := data

/-! ## The engine (`copy.go`) -/

/-- A run of the recursive part: `none` when the fuel ran out. -/
abbrev Res := Option (Option Err × World)

/-- The type of `switchboard`, used to tie the recursion. -/
abbrev Switch := Path → Path → FileInfo → Options → Bool → Path → World → Res

/-- Go: `fclose`. Close the file anyhow; report the error of `Close` only when nothing was
reported before. -/
def fclose (os : Faults) (f : Path) (reported : Option Err) (w : World) : Option Err × World :=
  match File_Close os f w with
  | (err, w1) => (if reported = none then err else reported, w1)

/-- Go: `lcopy`. -/
def lcopy (os : Faults) (src dest : Path) (w : World) : Option Err × World :=
  match os_Readlink os src w with
  | (.error e, w1) => (some e, w1)
  | (.ok target, w1) => os_Symlink os target dest w1

/-- The reader `r` that `fcopy` hands to `io.CopyBuffer`. -/
def fcopyReader (opt : Options) : List Byte → List Byte :=
  match opt.WrapReader with
  | some wrap => wrap
  | none => if opt.FileProgressBar then WrapReaderPB else id

/-- Go: `fcopy` from `io.CopyBuffer` to the final `return`, both files being open. -/
def fcopyTransfer (os : Faults) (src dest : Path) (info : FileInfo) (opt : Options) (f s : Path)
    (w : World) : Option Err × World :=
  match io_CopyBuffer os f s (fcopyReader opt) opt.CopyBufferSize w with
  | (some e, w1) => (some e, w1)
  | (none, w1) =>
    match (if opt.Sync then File_Sync os f w1 else (none, w1)) with
    | (err, w2) =>
      match (if opt.PreserveOwner then preserveOwner os src dest info w2 else (none, w2)) with
      | (some e, w3) => (some e, w3)
      | (none, w3) =>
        match (if opt.PreserveTimes then preserveTimes os info dest w3 else (none, w3)) with
        | (some e, w4) => (some e, w4)
        | (none, w4) => (err, w4)

/-- Go: `fcopy` after `defer fclose(f, &err)`, up to the deferred close of `f`. -/
def fcopyCreated (os : Faults) (src dest : Path) (info : FileInfo) (opt : Options) (f : Path)
    (w : World) : Option Err × World :=
  match opt.PermissionControl info dest w.fs with
  | (.error e, fs1) => (some e, World.mk fs1 (w.log ++ [Op.PermissionControl info dest]))
  | (.ok chmodfunc, fs1) =>
    -- `chmodfunc(&err)`: the error it may report is overwritten by that of `os.Open`
    match chmodfunc none fs1 with
    | (_, fs2) =>
      match os_Open os src (World.mk fs2 (w.log ++ [Op.PermissionControl info dest, Op.chmodfunc dest])) with
      | (.error e, w1) => (some e, w1)
      | (.ok s, w1) =>
        match fcopyTransfer os src dest info opt f s w1 with
        | (err, w2) => fclose os s err w2

/-- Go: `fcopy`. -/
def fcopy (os : Faults) (src dest : Path) (info : FileInfo) (opt : Options) (w : World) :
    Option Err × World :=
  match os_MkdirAll os (Dir dest) ModePerm w with
  | (some e, w1) => (some e, w1)
  | (none, w1) =>
    match os_Create os dest w1 with
    | (.error e, w2) => (some e, w2)
    | (.ok f, w2) =>
      match fcopyCreated os src dest info opt f w2 with
      | (err, w3) => fclose os f err w3

/-- Go: `onDirExists`; the result is the pair `(skip, err)`. -/
def onDirExists (os : Faults) (opt : Options) (srcdir destdir : Path) (w : World) :
    (Bool × Option Err) × World :=
  match os_Stat os destdir w with
  | (.ok _, w1) =>
    match opt.OnDirExists with
    | some resolve =>
      if destdir ≠ opt.intent.dest then
        match resolve srcdir destdir with
        | .Replace =>
          match os_RemoveAll os destdir (w1.emit (.OnDirExists srcdir destdir)) with
          | (some e, w2) => ((false, some e), w2)
          | (none, w2) => ((false, none), w2)
        | .Untouchable => ((true, none), w1.emit (.OnDirExists srcdir destdir))
        | _ => ((false, none), w1.emit (.OnDirExists srcdir destdir))
      else ((false, none), w1)
    | none => ((false, none), w1)
  | (.error e, w1) =>
    if IsNotExist e then ((false, none), w1) else ((true, some e), w1)

/-- Go: `copyNextOrSkip`, with the `switchboard` it calls as a parameter. -/
def copyNextOrSkipWith (sb : Switch) (src dest : Path) (info : FileInfo) (opt : Options)
    (p : Bool) (initialBasePath : Path) (w : World) : Res :=
  match opt.Skip with
  | some skipFn =>
    match skipFn info src dest with
    | .error e => some (some e, w.emit (.Skip info src dest))
    | .ok true => some (none, w.emit (.Skip info src dest))
    | .ok false => sb src dest info opt p initialBasePath (w.emit (.Skip info src dest))
  | none => sb src dest info opt p initialBasePath w

/-- Go: the `for _, content := range contents` loop of `dcopy`. -/
def dcopyLoop (sb : Switch) (srcdir destdir : Path) (opt : Options) (p : Bool)
    (initialBasePath : Path) : List FileInfo → World → Res
  | [], w => some (none, w)
  | content :: rest, w =>
    match copyNextOrSkipWith sb (Join srcdir content.Name) (Join destdir content.Name) content opt p
        initialBasePath w with
    | none => none
    | some (some e, w1) => some (some e, w1)
    | some (none, w1) =>
      dcopyLoop sb srcdir destdir opt p initialBasePath rest (if p then w1.emit (.progress .Add) else w1)

/-- Go: the end of `dcopy`, after the loop: times, then owner. -/
def dcopyPreserve (os : Faults) (srcdir destdir : Path) (info : FileInfo) (opt : Options)
    (w : World) : Option Err × World :=
  match (if opt.PreserveTimes then preserveTimes os info destdir w else (none, w)) with
  | (some e, w1) => (some e, w1)
  | (none, w1) =>
    match (if opt.PreserveOwner then preserveOwner os srcdir destdir info w1 else (none, w1)) with
    | (some e, w2) => (some e, w2)
    | (none, w2) => (none, w2)

/-- Go: `dcopy` between `defer chmodfunc(&err)` and the moment the deferred call runs. -/
def dcopyBody (sb : Switch) (os : Faults) (srcdir destdir : Path) (info : FileInfo) (opt : Options)
    (p : Bool) (initialBasePath : Path) (w : World) : Res :=
  match ioutil_ReadDir os srcdir w with
  | (.error e, w1) => some (some e, w1)
  | (.ok contents, w1) =>
    match dcopyLoop sb srcdir destdir opt p initialBasePath contents
        (if p then
          (if info.IsDir then (w1.emit (.progress (.ChangeMax contents.length))).emit
              (.progress (.Describe (Rel initialBasePath srcdir)))
            else w1.emit (.progress (.ChangeMax contents.length)))
          else w1) with
    | none => none
    | some (some e, w2) => some (some e, w2)
    | some (none, w2) => some (dcopyPreserve os srcdir destdir info opt w2)

/-- Go: `dcopy`. -/
def dcopyWith (sb : Switch) (os : Faults) (srcdir destdir : Path) (info : FileInfo) (opt : Options)
    (p : Bool) (initialBasePath : Path) (w : World) : Res :=
  match onDirExists os opt srcdir destdir w with
  | ((_, some e), w1) => some (some e, w1)
  | ((true, none), w1) => some (none, w1)
  | ((false, none), w1) =>
    match opt.PermissionControl info destdir w1.fs with
    | (.error e, fs1) => some (some e, World.mk fs1 (w1.log ++ [Op.PermissionControl info destdir]))
    | (.ok chmodfunc, fs1) =>
      match dcopyBody sb os srcdir destdir info opt p initialBasePath
          (World.mk fs1 (w1.log ++ [Op.PermissionControl info destdir])) with
      | none => none
      | some (err, w2) =>
        match chmodfunc err w2.fs with
        | (err1, fs3) => some (err1, World.mk fs3 (w2.log ++ [Op.chmodfunc destdir]))

/-- Go: `onsymlink`. -/
def onsymlinkWith (sb : Switch) (os : Faults) (src dest : Path) (opt : Options) (w : World) : Res :=
  match opt.OnSymlink src with
  | .Shallow =>
    match lcopy os src dest (w.emit (.OnSymlink src)) with
    | (some e, w1) => some (some e, w1)
    | (none, w1) => if opt.PreserveTimes then some (preserveLtimes os src dest w1) else some (none, w1)
  | .Deep =>
    match os_Readlink os src (w.emit (.OnSymlink src)) with
    | (.error e, w1) => some (some e, w1)
    | (.ok orig, w1) =>
      match os_Lstat os orig w1 with
      | (.error e, w2) => some (some e, w2)
      | (.ok info, w2) => copyNextOrSkipWith sb orig dest info opt false [] w2
  | _ => some (none, w.emit (.OnSymlink src))

/-- Go: the body of `switchboard`. -/
def switchboardStep (sb : Switch) (os : Faults) : Switch :=
  fun src dest info opt p initialBasePath w =>
    if info.Mode &&& ModeDevice ≠ 0 ∧ opt.Specials = false then
      some (none, w.emit (.switchboard src dest info))
    else if info.Mode &&& ModeSymlink ≠ 0 then
      onsymlinkWith sb os src dest opt (w.emit (.switchboard src dest info))
    else if info.IsDir = true then
      dcopyWith sb os src dest info opt p initialBasePath (w.emit (.switchboard src dest info))
    else if info.Mode &&& ModeNamedPipe ≠ 0 then
      some (pcopy os dest info (w.emit (.switchboard src dest info)))
    else
      some (fcopy os src dest info opt (w.emit (.switchboard src dest info)))

/-- Go: `switchboard`, with `fuel` bounding the depth of the recursion. -/
def switchboard (os : Faults) : Nat → Switch
  | 0 => fun _ _ _ _ _ _ _ => none
  | fuel + 1 => switchboardStep (switchboard os fuel) os

/-- Go: `dcopy`. -/
def dcopy (os : Faults) (fuel : Nat) : Switch := dcopyWith (switchboard os fuel) os

/-- Go: `onsymlink`. -/
def onsymlink (os : Faults) (fuel : Nat) (src dest : Path) (opt : Options) (w : World) : Res :=
  onsymlinkWith (switchboard os fuel) os src dest opt w

/-- Go: `Copy`. The variadic `opt` is taken as given. -/
def Copy (os : Faults) (fuel : Nat) (src dest : Path) (opt : Options) (w : World) : Res :=
  match os_Lstat os src w with
  | (.error e, w1) => some (some e, w1)
  | (.ok info, w1) =>
    if opt.DirProgressBar = true ∧ info.IsDir = true then
      match switchboard os fuel src dest info (assureOptions src dest opt) true (Dir src)
          (w1.emit (.progress (.Default src))) with
      | none => none
      | some (err, w2) =>
        some (err, ((w2.emit (.progress (.Describe [Base src]))).emit (.progress .Add)).emit
          (.progress .Finish))
    else
      switchboard os fuel src dest info (assureOptions src dest opt) false [] w1

/-- Modelled from the spec: a deferred permission decision, "what permission should this
destination entry end up with": a `chmod` of the destination whose failure is reported only
when nothing was reported before ("first error always wins"). -/
def chmodAction (dest : Path) (mode : Nat) : ChmodFunc :=
  fun reported fs =>
    match fs.chmod dest mode with
    | .error e => (if reported = none then some e else reported, fs)
    | .ok fs1 => (reported, fs1)

/-- Modelled from the spec: the permission hooks of the repository, which are not among the
sources. For a directory "the destination directory is then created (if absent)" with a
mode that keeps it writable (`dcopy` says `0755`), "deferring the final permission
decision"; for any other entry only the deferred decision is produced. -/
def PermissionControlOf (target : FileInfo → Nat) : FileInfo → Path → FS → Except Err ChmodFunc × FS :=
  fun info dest fs =>
    if info.IsDir = true then
      match fs.mkdirAll dest 493 with
      | .error e => (.error e, fs)
      | .ok fs1 => (.ok (chmodAction dest (target info)), fs1)
    else (.ok (chmodAction dest (target info)), fs)

/-- No fault is ever injected. -/
def noFaults : Faults := fun _ _ => none

def plainOptions : Options where
  OnSymlink := fun _ => SymlinkAction.Shallow
  OnDirExists := none
  Skip := none
  PermissionControl := PermissionControlOf (fun info => info.Mode &&& ModePerm)
  Sync := false
  PreserveTimes := false
  PreserveOwner := false
  CopyBufferSize := 0
  WrapReader := none
  FileProgressBar := false
  DirProgressBar := false
  Specials := false
  intent := Intent.mk [] []

/-- The operations of the operating system, of the helpers and of the progress bar, as
opposed to calls of policy hooks and the `switchboard` marker. -/
def Op.isPrim : Op → Bool
  | .Skip _ _ _ => false
  | .OnSymlink _ => false
  | .OnDirExists _ _ => false
  | .PermissionControl _ _ => false
  | .chmodfunc _ => false
  | .switchboard _ _ _ => false
  | _ => true

/-- World `w2` continues `w1` by operations that all satisfy `ok`. -/
def Steps (ok : Op → Prop) (w1 w2 : World) : Prop :=
  ∃ seg, w2.log = w1.log ++ seg ∧ ∀ op ∈ seg, ok op

/-- The five ways `switchboard` can go. -/
inductive Handler
  | ignore
  | onsymlink
  | dcopy
  | pcopy
  | fcopy
  deriving DecidableEq, Repr

/-- The routing table in the words of the specification: the first line that applies wins. -/
def routeTable (info : FileInfo) (opt : Options) : List (Bool × Handler) :=
  [ (decide (info.Mode &&& ModeDevice ≠ 0) && !opt.Specials, Handler.ignore),
    (decide (info.Mode &&& ModeSymlink ≠ 0), Handler.onsymlink),
    (info.IsDir, Handler.dcopy),
    (decide (info.Mode &&& ModeNamedPipe ≠ 0), Handler.pcopy) ]

def route (info : FileInfo) (opt : Options) : Handler :=
  match (routeTable info opt).find? (fun line => line.1) with
  | some line => line.2
  | none => Handler.fcopy

/-- Run one handler, with the arguments `switchboard` gives it. -/
def runHandler (os : Faults) (fuel : Nat) (h : Handler) (src dest : Path) (info : FileInfo)
    (opt : Options) (p : Bool) (initialBasePath : Path) (w : World) : Res :=
  match h with
  | .ignore => some (none, w)
  | .onsymlink => onsymlink os fuel src dest opt w
  | .dcopy => dcopy os fuel src dest info opt p initialBasePath w
  | .pcopy => some (pcopy os dest info w)
  | .fcopy => some (fcopy os src dest info opt w)

/-- A deferred permission action whose `chmod` fails: it reports `Err.other 13` unless an
error was reported before. -/
def failingChmod : ChmodFunc :=
  fun reported fs => (if reported = none then some (Err.other 13) else reported, fs)

/-- A policy whose permission decision is computed without error and fails when applied. -/
def failingChmodOptions : Options :=
  { plainOptions with PermissionControl := fun _ _ fs => (.ok failingChmod, fs) }

/-- A policy asking for `Sync` and for owner preservation. -/
def syncOwnerOptions : Options :=
  { plainOptions with Sync := true, PreserveOwner := true }

/-- The oracle under which `Sync` fails with `Err.other 5` and nothing else fails. -/
def syncFails : Faults :=
  fun _ op => match op with
    | .Sync _ => some (Err.other 5)
    | _ => none

/-- The oracle under which `Sync` fails with `Err.other 5` and `preserveOwner` with `Err.other 1`. -/
def syncAndOwnerFail : Faults :=
  fun _ op => match op with
    | .Sync _ => some (Err.other 5)
    | .preserveOwner _ _ => some (Err.other 1)
    | _ => none

/-- A source tree `a/` holding `a/x.txt` ("hi") and the empty directory `a/b/`. -/
def sampleFS : FS :=
  [([], .dir 493), (["a"], .dir 493), (["a", "x.txt"], .file 420 [104, 105]), (["a", "b"], .dir 448)]

def sampleWorld : World := World.mk sampleFS []

/-- A trace in which every `switchboard` marker comes right after the call of the skip
predicate for the same entry, and that call answered "proceed". -/
inductive Guarded (skipFn : FileInfo → Path → Path → Except Err Bool) : List Op → Prop
  | nil : Guarded skipFn []
  | dispatch (info : FileInfo) (src dest : Path) (rest : List Op) :
      skipFn info src dest = .ok false → Guarded skipFn rest →
      Guarded skipFn (Op.Skip info src dest :: Op.switchboard src dest info :: rest)
  | other (op : Op) (rest : List Op) : (∀ s d i, op ≠ Op.switchboard s d i) →
      Guarded skipFn rest → Guarded skipFn (op :: rest)

/-- The same, said with positions: whatever is dispatched at some point of the trace was
handed to the skip predicate immediately before, and the predicate answered "proceed". -/
def DispatchGuarded (skipFn : FileInfo → Path → Path → Except Err Bool) (trace : List Op) : Prop :=
  ∀ before after src dest info, trace = before ++ Op.switchboard src dest info :: after →
    ∃ earlier, before = earlier ++ [Op.Skip info src dest] ∧ skipFn info src dest = .ok false

/-- World `w2` continues `w1` by a guarded trace. -/
def GuardedRun (skipFn : FileInfo → Path → Path → Except Err Bool) (w1 w2 : World) : Prop :=
  ∃ seg, w2.log = w1.log ++ seg ∧ Guarded skipFn seg

/-- World `w2` continues `w1` by the marker of one dispatch followed by a guarded trace. -/
def DispatchRun (skipFn : FileInfo → Path → Path → Except Err Bool) (src dest : Path)
    (info : FileInfo) (w1 w2 : World) : Prop :=
  ∃ rest, w2.log = w1.log ++ Op.switchboard src dest info :: rest ∧ Guarded skipFn rest

/-- The operations that are not the marker of a dispatch. -/
def Op.quiet (op : Op) : Prop := ∀ s d i, op ≠ Op.switchboard s d i

/-- A deferred permission action run here belongs to `dest` or to a path below it. -/
def Op.chmodWithin (dest : Path) (op : Op) : Prop := ∀ d, op = Op.chmodfunc d → dest <+: d

/-- A deferred permission action run here belongs to a path strictly below `dest`. -/
def Op.chmodBelow (dest : Path) (op : Op) : Prop := ∀ d, op = Op.chmodfunc d → dest <+: d ∧ d ≠ dest

/-- A skip predicate that asks to skip every entry. -/
def skipEverything : FileInfo → Path → Path → Except Err Bool := fun _ _ _ => .ok true

/-- A skip predicate that asks to skip exactly the entries named `b`. -/
def skipNamedB : FileInfo → Path → Path → Except Err Bool := fun info _ _ => .ok (decide (info.Name = "b"))

def skipEverythingOptions : Options :=
  { plainOptions with Skip := some skipEverything }

def skipNamedBOptions : Options :=
  { plainOptions with Skip := some skipNamedB }

def infoA : FileInfo := FileInfo.mk "a" 2147484141

def infoB : FileInfo := FileInfo.mk "b" 2147484096

def infoX : FileInfo := FileInfo.mk "x.txt" 420

/-- The world of the sample copy once `a/` has been listed. -/
def listedWorld (opt : Options) : World :=
  World.mk ((opt.PermissionControl infoA ["out"] sampleFS).2)
    [Op.Stat ["out"], Op.PermissionControl infoA ["out"], Op.ReadDir ["a"]]

/-- The world in which the sample copy with `skipNamedB` ends. -/
def skipNamedBResult : World :=
  ((Copy noFaults 3 ["a"] ["out"] skipNamedBOptions sampleWorld).getD (none, sampleWorld)).2

/-- A resolver that answers `Untouchable` for every directory. -/
def untouchableOptions : Options :=
  { plainOptions with OnDirExists := some (fun _ _ => DirExistsAction.Untouchable) }

/-- The sample tree together with a destination `out/` that already holds `out/b/keep.txt`. -/
def mergedFS : FS :=
  [([], .dir 493), (["a"], .dir 493), (["a", "x.txt"], .file 420 [104, 105]), (["a", "b"], .dir 448),
    (["a", "b", "y.txt"], .file 420 [121]),
    (["out"], .dir 493), (["out", "b"], .dir 493), (["out", "b", "keep.txt"], .file 420 [107])]

def mergedWorld : World := World.mk mergedFS []

/-- The entry `src ++ rel` lies in a skipped subtree: for some entry on the way from below
`src` down to it, the skip predicate, called as `copyNextOrSkip` calls it, answers skip. -/
def SkippedBelow (opt : Options) (fs : FS) (src dest : Path) (rel : List String) : Prop :=
  ∃ skipFn pre n, opt.Skip = some skipFn ∧ pre ≠ [] ∧ pre <+: rel ∧ fs.get (src ++ pre) = some n ∧
    skipFn (FileInfo.mk (Base (src ++ pre)) n.mode) (src ++ pre) (dest ++ pre) = .ok true

theorem Steps.stay (ok : Op → Prop) (w : World) : Steps ok w w :=
  ⟨[], by simp, by simp⟩

theorem Steps.andThen {ok : Op → Prop} {w1 w2 w3 : World} (h12 : Steps ok w1 w2)
    (h23 : Steps ok w2 w3) : Steps ok w1 w3 := by
  obtain ⟨s1, e1, o1⟩ := h12
  obtain ⟨s2, e2, o2⟩ := h23
  refine ⟨s1 ++ s2, by rw [e2, e1, List.append_assoc], ?_⟩
  intro op hop
  rcases List.mem_append.1 hop with h | h
  · exact o1 op h
  · exact o2 op h

theorem Steps.mono {ok ok2 : Op → Prop} {w1 w2 : World} (h : Steps ok w1 w2)
    (himp : ∀ op, ok op → ok2 op) : Steps ok2 w1 w2 := by
  obtain ⟨s, e, o⟩ := h
  exact ⟨s, e, fun op hop => himp op (o op hop)⟩

theorem Steps.one {ok : Op → Prop} {w : World} {op : Op} (fs : FS) (h : ok op) :
    Steps ok w (World.mk fs (w.log ++ [op])) :=
  ⟨[op], rfl, by simpa using h⟩

theorem Steps.more {ok : Op → Prop} {w : World} (fs : FS) (ops : List Op) (h : ∀ op ∈ ops, ok op) :
    Steps ok w (World.mk fs (w.log ++ ops)) :=
  ⟨ops, rfl, h⟩

theorem sys_log {α : Type} (os : Faults) (op : Op) (sem : FS → Except Err (α × FS)) (w : World) :
    (sys os op sem w).2.log = w.log ++ [op] := by
  unfold sys
  cases os w.log op with
  | some e => rfl
  | none =>
    simp only []
    cases sem w.fs with
    | error e => rfl
    | ok r => rfl

theorem sysErr_log (os : Faults) (op : Op) (sem : FS → Except Err FS) (w : World) :
    (sysErr os op sem w).2.log = w.log ++ [op] := by
  unfold sysErr
  cases os w.log op with
  | some e => rfl
  | none =>
    simp only []
    cases sem w.fs with
    | error e => rfl
    | ok r => rfl

theorem sys_steps {α : Type} (ok : Op → Prop) (os : Faults) (op : Op)
    (sem : FS → Except Err (α × FS)) (w : World) (h : ok op) : Steps ok w (sys os op sem w).2 :=
  ⟨[op], sys_log os op sem w, by simpa using h⟩

theorem sysErr_steps (ok : Op → Prop) (os : Faults) (op : Op)
    (sem : FS → Except Err FS) (w : World) (h : ok op) : Steps ok w (sysErr os op sem w).2 :=
  ⟨[op], sysErr_log os op sem w, by simpa using h⟩

theorem fclose_steps (ok : Op → Prop) (os : Faults) (f : Path) (r : Option Err) (w : World)
    (h : ∀ op, op.isPrim = true → ok op) : Steps ok w (fclose os f r w).2 := by
  unfold fclose File_Close
  exact sysErr_steps _ os _ _ w (h _ rfl)

theorem lcopy_steps (ok : Op → Prop) (os : Faults) (src dest : Path) (w : World)
    (h : ∀ op, op.isPrim = true → ok op) : Steps ok w (lcopy os src dest w).2 := by
  unfold lcopy
  have h1 : Steps ok w (os_Readlink os src w).2 := sys_steps _ os _ _ w (h _ rfl)
  rcases hr : os_Readlink os src w with ⟨r, w1⟩
  rw [hr] at h1
  cases r with
  | error e => exact h1
  | ok t => exact h1.andThen (sysErr_steps _ os _ _ w1 (h _ rfl))

theorem pcopy_steps (ok : Op → Prop) (os : Faults) (dest : Path) (info : FileInfo) (w : World)
    (h : ∀ op, op.isPrim = true → ok op) : Steps ok w (pcopy os dest info w).2 :=
  sysErr_steps _ os _ _ w (h _ rfl)

theorem preserveOwner_steps (ok : Op → Prop) (os : Faults) (src dest : Path) (info : FileInfo)
    (w : World) (h : ∀ op, op.isPrim = true → ok op) :
    Steps ok w (preserveOwner os src dest info w).2 :=
  sysErr_steps _ os _ _ w (h _ rfl)

theorem preserveTimes_steps (ok : Op → Prop) (os : Faults) (dest : Path) (info : FileInfo)
    (w : World) (h : ∀ op, op.isPrim = true → ok op) :
    Steps ok w (preserveTimes os info dest w).2 :=
  sysErr_steps _ os _ _ w (h _ rfl)

theorem preserveLtimes_steps (ok : Op → Prop) (os : Faults) (src dest : Path)
    (w : World) (h : ∀ op, op.isPrim = true → ok op) :
    Steps ok w (preserveLtimes os src dest w).2 :=
  sysErr_steps _ os _ _ w (h _ rfl)

theorem ite_steps (ok : Op → Prop) (c : Bool) (f : World → Option Err × World) (w : World)
    (h : ∀ w, Steps ok w (f w).2) : Steps ok w (if c = true then f w else (none, w)).2 := by
  cases c
  · exact Steps.stay ok w
  · exact h w

theorem fcopyTransfer_steps (ok : Op → Prop) (os : Faults) (src dest : Path) (info : FileInfo)
    (opt : Options) (f s : Path) (w : World) (h : ∀ op, op.isPrim = true → ok op) :
    Steps ok w (fcopyTransfer os src dest info opt f s w).2 := by
  unfold fcopyTransfer
  have h1 : Steps ok w (io_CopyBuffer os f s (fcopyReader opt) opt.CopyBufferSize w).2 :=
    sysErr_steps _ os _ _ w (h _ rfl)
  generalize io_CopyBuffer os f s (fcopyReader opt) opt.CopyBufferSize w = xr1 at *
  obtain ⟨r1, w1⟩ := xr1
  cases r1 with
  | some e => exact h1
  | none =>
    simp only []
    have h2 := ite_steps _ opt.Sync (File_Sync os f) w1 (fun w => sysErr_steps _ os _ _ w (h _ rfl))
    generalize (if opt.Sync = true then File_Sync os f w1 else (none, w1)) = xr2 at *
    obtain ⟨r2, w2⟩ := xr2
    simp only []
    have h3 := ite_steps _ opt.PreserveOwner (preserveOwner os src dest info) w2
      (fun w => preserveOwner_steps _ os src dest info w h)
    generalize (if opt.PreserveOwner = true then preserveOwner os src dest info w2 else (none, w2)) = xr3 at *
    obtain ⟨r3, w3⟩ := xr3
    cases r3 with
    | some e => exact (h1.andThen h2).andThen h3
    | none =>
      simp only []
      have h4 := ite_steps _ opt.PreserveTimes (preserveTimes os info dest) w3
        (fun w => preserveTimes_steps _ os dest info w h)
      generalize (if opt.PreserveTimes = true then preserveTimes os info dest w3 else (none, w3)) = xr4 at *
      obtain ⟨r4, w4⟩ := xr4
      cases r4 with
      | some e => exact ((h1.andThen h2).andThen h3).andThen h4
      | none => exact ((h1.andThen h2).andThen h3).andThen h4

theorem fcopy_steps (ok : Op → Prop) (os : Faults) (src dest : Path) (info : FileInfo)
    (opt : Options) (w : World) (h : ∀ op, op.isPrim = true → ok op)
    (hpc : ok (Op.PermissionControl info dest)) (hch : ok (Op.chmodfunc dest)) :
    Steps ok w (fcopy os src dest info opt w).2 := by
  unfold fcopy
  have h1 : Steps ok w (os_MkdirAll os (Dir dest) ModePerm w).2 := sysErr_steps _ os _ _ w (h _ rfl)
  generalize os_MkdirAll os (Dir dest) ModePerm w = xr1 at *
  obtain ⟨r1, w1⟩ := xr1
  cases r1 with
  | some e => exact h1
  | none =>
    simp only []
    have h2 : Steps ok w1 (os_Create os dest w1).2 := sys_steps _ os _ _ w1 (h _ rfl)
    generalize os_Create os dest w1 = xr2 at *
    obtain ⟨r2, w2⟩ := xr2
    cases r2 with
    | error e => exact h1.andThen h2
    | ok f =>
      simp only []
      refine (h1.andThen h2).andThen (Steps.andThen ?_ (fclose_steps _ os f _ _ h))
      unfold fcopyCreated
      generalize opt.PermissionControl info dest w2.fs = xr3 at *
      obtain ⟨r3, fs1⟩ := xr3
      cases r3 with
      | error e => exact Steps.one fs1 hpc
      | ok chmodfunc =>
        simp only []
        have h3 : Steps ok w2 (World.mk (chmodfunc none fs1).2
            (w2.log ++ [Op.PermissionControl info dest, Op.chmodfunc dest])) :=
          Steps.more _ _ (by
            intro op hop
            simp only [List.mem_cons, List.mem_singleton, List.not_mem_nil, or_false] at hop
            rcases hop with rfl | rfl
            · exact hpc
            · exact hch)
        have h4 := sys_steps (ok) os (Op.Open src) (fun fs => (fs.open src).map (fun h => (h, fs)))
          (World.mk (chmodfunc none fs1).2 (w2.log ++ [Op.PermissionControl info dest, Op.chmodfunc dest]))
          (h _ rfl)
        change Steps ok _ (os_Open os src _).2 at h4
        generalize os_Open os src (World.mk (chmodfunc none fs1).2
            (w2.log ++ [Op.PermissionControl info dest, Op.chmodfunc dest])) = xr4 at *
        obtain ⟨r4, w4⟩ := xr4
        cases r4 with
        | error e => exact h3.andThen h4
        | ok s =>
          simp only []
          exact (h3.andThen h4).andThen
            ((fcopyTransfer_steps _ os src dest info opt f s w4 h).andThen (fclose_steps _ os s _ _ h))

theorem onDirExists_steps (ok : Op → Prop) (os : Faults) (opt : Options) (srcdir destdir : Path)
    (w : World) (h : ∀ op, op.isPrim = true → ok op) (hr : ok (Op.OnDirExists srcdir destdir)) :
    Steps ok w (onDirExists os opt srcdir destdir w).2 := by
  unfold onDirExists
  have h1 : Steps ok w (os_Stat os destdir w).2 := sys_steps _ os _ _ w (h _ rfl)
  generalize os_Stat os destdir w = xr1 at *
  obtain ⟨r1, w1⟩ := xr1
  cases r1 with
  | error e =>
    simp only []
    split <;> exact h1
  | ok info =>
    simp only []
    cases opt.OnDirExists with
    | none => exact h1
    | some resolve =>
      simp only []
      split
      · have h2 : Steps ok w1 (w1.emit (Op.OnDirExists srcdir destdir)) := Steps.one _ hr
        cases resolve srcdir destdir with
        | Replace =>
          simp only []
          have h3 : Steps ok (w1.emit (Op.OnDirExists srcdir destdir))
              (os_RemoveAll os destdir (w1.emit (Op.OnDirExists srcdir destdir))).2 :=
            sysErr_steps _ os _ _ _ (h _ rfl)
          generalize os_RemoveAll os destdir (w1.emit (Op.OnDirExists srcdir destdir)) = xr3 at *
          obtain ⟨r3, w3⟩ := xr3
          cases r3 <;> exact (h1.andThen h2).andThen h3
        | Untouchable => exact h1.andThen h2
        | Merge => exact h1.andThen h2
        | other n => exact h1.andThen h2
      · exact h1

theorem dcopyPreserve_steps (ok : Op → Prop) (os : Faults) (srcdir destdir : Path)
    (info : FileInfo) (opt : Options) (w : World) (h : ∀ op, op.isPrim = true → ok op) :
    Steps ok w (dcopyPreserve os srcdir destdir info opt w).2 := by
  unfold dcopyPreserve
  have h1 := ite_steps _ opt.PreserveTimes (preserveTimes os info destdir) w
    (fun w => preserveTimes_steps _ os destdir info w h)
  generalize (if opt.PreserveTimes = true then preserveTimes os info destdir w else (none, w)) = xr1 at *
  obtain ⟨r1, w1⟩ := xr1
  cases r1 with
  | some e => exact h1
  | none =>
    simp only []
    have h2 := ite_steps _ opt.PreserveOwner (preserveOwner os srcdir destdir info) w1
      (fun w => preserveOwner_steps _ os srcdir destdir info w h)
    generalize (if opt.PreserveOwner = true then preserveOwner os srcdir destdir info w1 else (none, w1)) = xr2 at *
    obtain ⟨r2, w2⟩ := xr2
    cases r2 <;> exact h1.andThen h2


theorem FS.get_set (fs : FS) (p : Path) (n : Node) (q : Path) :
    (fs.set p n).get q = if p = q then some n else fs.get q := by
  simp [FS.set, FS.get]

theorem FS.ensureDir_dir {fs fs2 : FS} {q : Path} {perm : Nat} (h : fs.ensureDir q perm = .ok fs2) :
    ∃ pm, fs2.get q = some (.dir pm) := by
  unfold FS.ensureDir at h
  split at h
  · rename_i pm hq
    simp only [Except.ok.injEq] at h; subst h; exact ⟨pm, hq⟩
  · simp only [Except.ok.injEq] at h
    subst h
    exact ⟨perm, by simp [FS.get_set]⟩
  · simp at h

theorem FS.mkdirFrom_last (perm : Nat) (todo : List String) :
    ∀ (fs : FS) (pre : Path) (fs2 : FS), FS.mkdirFrom perm fs pre todo = .ok fs2 →
      ∃ pm, fs2.get (pre ++ todo) = some (.dir pm) := by
  induction todo with
  | nil =>
    intro fs pre fs2 h
    simp only [FS.mkdirFrom] at h
    simpa using FS.ensureDir_dir h
  | cons c rest ih =>
    intro fs pre fs2 h
    simp only [FS.mkdirFrom] at h
    cases he : fs.ensureDir pre perm with
    | error e => rw [he] at h; simp at h
    | ok fs1 =>
      rw [he] at h
      simp only [] at h
      simpa using ih fs1 (pre ++ [c]) fs2 h

theorem FS.mkdirAll_dir {fs fs2 : FS} {p : Path} {perm : Nat} (h : fs.mkdirAll p perm = .ok fs2) :
    ∃ pm, fs2.get p = some (.dir pm) := by
  simpa using FS.mkdirFrom_last perm p fs [] fs2 h

theorem Base_concat (p : Path) (c : String) : Base (p ++ [c]) = c := by
  simp [Base]

theorem SkippedBelow.nil {opt : Options} {fs : FS} {src dest : Path} :
    ¬ SkippedBelow opt fs src dest [] := by
  rintro ⟨skipFn, pre, n, -, h2, h3, -, -⟩
  exact h2 (List.prefix_nil.1 h3)

/-- Being skipped below `src` at `c :: rel` means that the child `c` is skipped itself or
that `rel` is skipped below the child. -/
theorem SkippedBelow.cons {opt : Options} {fs : FS} {src dest : Path} {c : String}
    {rel : List String} :
    SkippedBelow opt fs src dest (c :: rel) ↔
      (∃ skipFn n, opt.Skip = some skipFn ∧ fs.get (src ++ [c]) = some n ∧
        skipFn (FileInfo.mk c n.mode) (src ++ [c]) (dest ++ [c]) = .ok true) ∨
      SkippedBelow opt fs (src ++ [c]) (dest ++ [c]) rel := by
  constructor
  · rintro ⟨skipFn, pre, n, h1, h2, h3, h4, h5⟩
    cases pre with
    | nil => exact absurd rfl h2
    | cons a pre2 =>
      obtain ⟨t, ht⟩ := h3
      simp only [List.cons_append, List.cons.injEq] at ht
      obtain ⟨rfl, ht⟩ := ht
      cases pre2 with
      | nil =>
        left
        refine ⟨skipFn, n, h1, h4, ?_⟩
        rw [Base_concat] at h5
        exact h5
      | cons b pre3 =>
        right
        refine ⟨skipFn, b :: pre3, n, h1, by simp, ⟨t, ht⟩, by simpa using h4, ?_⟩
        simpa using h5
  · rintro (⟨skipFn, n, h1, h2, h3⟩ | ⟨skipFn, pre, n, h1, h2, h3, h4, h5⟩)
    · refine ⟨skipFn, [c], n, h1, by simp, ?_, h2, ?_⟩
      · exact ⟨rel, rfl⟩
      · rw [Base_concat]; exact h3
    · refine ⟨skipFn, c :: pre, n, h1, by simp, ?_, by simpa using h4, ?_⟩
      · obtain ⟨t, ht⟩ := h3
        exact ⟨t, by simp [ht]⟩
      · simpa using h5

/-- C3: a call of `switchboard` is the run of exactly one handler, the one the routing table
selects in priority order (ignored device, symlink, directory, named pipe, regular file), and
its result is that handler's result, unchanged. -/
theorem switchboard_routes (os : Faults) (fuel : Nat) (src dest : Path) (info : FileInfo)
    (opt : Options) (p : Bool) (initialBasePath : Path) (w : World) :
    switchboard os (fuel + 1) src dest info opt p initialBasePath w =
      runHandler os fuel (route info opt) src dest info opt p initialBasePath
        (w.emit (.switchboard src dest info)) := by
  simp only [switchboard, switchboardStep, route, routeTable, List.find?]
  by_cases hd : info.Mode &&& ModeDevice ≠ 0 ∧ opt.Specials = false
  · obtain ⟨h1, h2⟩ := hd
    simp [h1, h2, runHandler]
  · have hd2 : (decide (info.Mode &&& ModeDevice ≠ 0) && !opt.Specials) = false := by
      by_contra hc
      simp only [Bool.not_eq_false, Bool.and_eq_true, decide_eq_true_eq, Bool.not_eq_true'] at hc
      exact hd hc
    rw [if_neg hd, hd2]
    by_cases hs : info.Mode &&& ModeSymlink ≠ 0
    · simp [hs, runHandler, onsymlink]
    · by_cases hdir : info.IsDir = true
      · simp [hs, hdir, runHandler, dcopy]
      · by_cases hp : info.Mode &&& ModeNamedPipe ≠ 0
        · simp [hs, hdir, hp, runHandler]
        · simp [hs, hdir, hp, runHandler]

theorem os_Stat_world (os : Faults) (p : Path) (w : World) :
    (os_Stat os p w).2 = w.emit (.Stat p) := by
  unfold os_Stat sys
  cases os w.log (Op.Stat p) <;> simp only []
  cases h : w.fs.stat p <;> simp [Except.map, World.emit]

theorem FS.get_removeAll (fs : FS) (p q : Path) :
    (fs.removeAll p).get q = if p <+: q then none else fs.get q := by
  induction fs with
  | nil => simp [FS.removeAll, FS.get]
  | cons e rest ih =>
    obtain ⟨k, n⟩ := e
    unfold FS.removeAll at ih ⊢
    by_cases hk : p <+: k
    · simp only [List.filter, hk, not_true_eq_false, decide_False]
      rw [ih]
      by_cases hq : p <+: q
      · simp [hq]
      · have : k ≠ q := by rintro rfl; exact hq hk
        simp [hq, FS.get, this]
    · simp only [List.filter, hk, not_false_eq_true, decide_True, FS.get]
      by_cases hkq : k = q
      · subst hkq; simp [hk]
      · simp only [hkq, if_false]; exact ih

/-- C5: `onDirExists` asks the resolver exactly when `Stat` of the destination succeeds, a
resolver is configured and the destination is not the destination of the top-level call.
When asked, `Replace` removes the destination recursively and answers proceed (or returns
the error of the removal), `Untouchable` answers skip without error and without touching the
filesystem, and `Merge` answers proceed without touching the filesystem, which is also the
answer when no resolver is configured. When `Stat` fails with "does not exist" the answer is
proceed without error; every other error of `Stat` is returned. -/
theorem onDirExists_contract (os : Faults) (opt : Options) (srcdir destdir : Path) (w : World) :
    (Op.OnDirExists srcdir destdir ∈ (onDirExists os opt srcdir destdir w).2.log.drop (w.log.length + 1) ↔
      ((os_Stat os destdir w).1.isOk = true ∧ opt.OnDirExists.isSome = true ∧ destdir ≠ opt.intent.dest)) ∧
    (∀ resolve, (os_Stat os destdir w).1.isOk = true → opt.OnDirExists = some resolve →
      destdir ≠ opt.intent.dest →
      (resolve srcdir destdir = .Replace →
        onDirExists os opt srcdir destdir w =
          ((false, (os_RemoveAll os destdir ((w.emit (.Stat destdir)).emit (.OnDirExists srcdir destdir))).1),
            (os_RemoveAll os destdir ((w.emit (.Stat destdir)).emit (.OnDirExists srcdir destdir))).2) ∧
        ((onDirExists os opt srcdir destdir w).1.2 = none →
          ∀ q, destdir <+: q → (onDirExists os opt srcdir destdir w).2.fs.get q = none)) ∧
      (resolve srcdir destdir = .Untouchable →
        (onDirExists os opt srcdir destdir w).1 = (true, none) ∧
        (onDirExists os opt srcdir destdir w).2.fs = w.fs) ∧
      (resolve srcdir destdir = .Merge →
        (onDirExists os opt srcdir destdir w).1 = (false, none) ∧
        (onDirExists os opt srcdir destdir w).2.fs = w.fs)) ∧
    ((os_Stat os destdir w).1.isOk = true → opt.OnDirExists = none →
      (onDirExists os opt srcdir destdir w).1 = (false, none) ∧
      (onDirExists os opt srcdir destdir w).2.fs = w.fs) ∧
    (∀ e, (os_Stat os destdir w).1 = .error e → IsNotExist e = true →
      onDirExists os opt srcdir destdir w = ((false, none), w.emit (.Stat destdir))) ∧
    (∀ e, (os_Stat os destdir w).1 = .error e → IsNotExist e = false →
      onDirExists os opt srcdir destdir w = ((true, some e), w.emit (.Stat destdir))) := by
  have hw := os_Stat_world os destdir w
  unfold onDirExists
  rcases hst : os_Stat os destdir w with ⟨r, w1⟩
  rw [hst] at hw
  simp only at hw
  subst hw
  cases r with
  | error e =>
    simp only [Except.isOk, Except.toBool, Bool.false_eq_true, false_and, iff_false,
      IsEmpty.forall_iff, implies_true, true_and, Except.error.injEq, forall_eq']
    refine ⟨?_, ?_, ?_⟩
    · cases hne : IsNotExist e <;> simp [World.emit]
    · intro h; simp [h]
    · intro h; simp [h]
  | ok info =>
    simp only [Except.isOk, Except.toBool, true_and, forall_true_left, reduceCtorEq,
      IsEmpty.forall_iff, implies_true, and_true]
    cases hres : opt.OnDirExists with
    | none => simp [World.emit]
    | some resolve =>
      simp only [Option.isSome_some, true_and, Option.some.injEq, forall_eq', reduceCtorEq,
        IsEmpty.forall_iff, and_true]
      by_cases hd : destdir = opt.intent.dest
      · simp [hd, World.emit]
      · simp only [ne_eq, hd, not_false_eq_true, if_true, forall_true_left]
        refine ⟨?_, ?_, ?_, ?_⟩
        · cases hact : resolve srcdir destdir <;> simp only []
          · simp [World.emit]
          · unfold os_RemoveAll sysErr
            cases os _ _ <;> simp [World.emit]
          · simp [World.emit]
          · simp [World.emit]
        · intro hact
          simp only [hact]
          unfold os_RemoveAll sysErr
          cases hf : os ((w.emit (Op.Stat destdir)).emit (Op.OnDirExists srcdir destdir)).log (Op.RemoveAll destdir) with
          | some e => simp
          | none =>
            simp only [true_and, forall_true_left]
            intro q hq
            rw [FS.get_removeAll]
            simp [hq]
        · intro hact
          simp [hact, World.emit]
        · intro hact
          simp [hact, World.emit]

/-- C7 (the code departs from the claim): in `fcopy` a failure of the permission action is
neither the end of the copy nor its result. With an action that reports `Err.other 13`, the
source is still opened, the bytes are copied, both files are closed, and `fcopy` returns
`nil`. Likewise a failing `Sync` does not stop `fcopy`: the owner is still preserved, and
when that fails too its error replaces the error of `Sync`. -/
theorem fcopy_failure_not_surfaced :
    (failingChmod none sampleFS).1 = some (Err.other 13) ∧
    (fcopy noFaults ["a", "x.txt"] ["out", "x.txt"] (FileInfo.mk "x.txt" 420) failingChmodOptions
        sampleWorld).1 = none ∧
    (fcopy noFaults ["a", "x.txt"] ["out", "x.txt"] (FileInfo.mk "x.txt" 420) failingChmodOptions
        sampleWorld).2.log =
      [Op.MkdirAll ["out"], Op.Create ["out", "x.txt"],
        Op.PermissionControl (FileInfo.mk "x.txt" 420) ["out", "x.txt"], Op.chmodfunc ["out", "x.txt"],
        Op.Open ["a", "x.txt"], Op.CopyBuffer ["out", "x.txt"] ["a", "x.txt"] 0,
        Op.Close ["a", "x.txt"], Op.Close ["out", "x.txt"]] ∧
    (fcopy syncFails ["a", "x.txt"] ["out", "x.txt"] (FileInfo.mk "x.txt" 420) syncOwnerOptions
        sampleWorld).2.log =
      [Op.MkdirAll ["out"], Op.Create ["out", "x.txt"],
        Op.PermissionControl (FileInfo.mk "x.txt" 420) ["out", "x.txt"], Op.chmodfunc ["out", "x.txt"],
        Op.Open ["a", "x.txt"], Op.CopyBuffer ["out", "x.txt"] ["a", "x.txt"] 0,
        Op.Sync ["out", "x.txt"], Op.preserveOwner ["a", "x.txt"] ["out", "x.txt"],
        Op.Close ["a", "x.txt"], Op.Close ["out", "x.txt"]] ∧
    (fcopy syncAndOwnerFail ["a", "x.txt"] ["out", "x.txt"] (FileInfo.mk "x.txt" 420)
        syncOwnerOptions sampleWorld).1 = some (Err.other 1) := by
  decide

theorem Guarded.append {skipFn : FileInfo → Path → Path → Except Err Bool} {a b : List Op}
    (ha : Guarded skipFn a) (hb : Guarded skipFn b) : Guarded skipFn (a ++ b) := by
  induction ha with
  | nil => simpa using hb
  | dispatch info src dest rest hs _ ih => exact Guarded.dispatch info src dest _ hs ih
  | other op rest hop _ ih => exact Guarded.other op _ hop ih

theorem Guarded.of_quiet {skipFn : FileInfo → Path → Path → Except Err Bool} {a : List Op}
    (ha : ∀ op ∈ a, ∀ s d i, op ≠ Op.switchboard s d i) : Guarded skipFn a := by
  induction a with
  | nil => exact Guarded.nil
  | cons op rest ih =>
    exact Guarded.other op rest (ha op (List.mem_cons_self _ _))
      (ih (fun o ho => ha o (List.mem_cons_of_mem _ ho)))

theorem Guarded.dispatchGuarded {skipFn : FileInfo → Path → Path → Except Err Bool} {a : List Op}
    (ha : Guarded skipFn a) : DispatchGuarded skipFn a := by
  induction ha with
  | nil =>
    intro before after src dest info h
    simp at h
  | dispatch info src dest rest hs _ ih =>
    intro before after s d i h
    match before, h with
    | [], h => simp at h
    | [x], h =>
      simp only [List.singleton_append, List.cons.injEq, Op.switchboard.injEq] at h
      obtain ⟨rfl, ⟨rfl, rfl, rfl⟩, rfl⟩ := h
      exact ⟨[], rfl, hs⟩
    | x :: y :: before2, h =>
      simp only [List.cons_append, List.cons.injEq] at h
      obtain ⟨rfl, rfl, h⟩ := h
      obtain ⟨earlier, he, hsk⟩ := ih before2 after s d i h
      exact ⟨Op.Skip info src dest :: Op.switchboard src dest info :: earlier, by simp [he], hsk⟩
  | other op rest hop _ ih =>
    intro before after s d i h
    match before, h with
    | [], h =>
      simp only [List.nil_append, List.cons.injEq] at h
      exact absurd h.1 (hop s d i)
    | x :: before2, h =>
      simp only [List.cons_append, List.cons.injEq] at h
      obtain ⟨rfl, h⟩ := h
      obtain ⟨earlier, he, hsk⟩ := ih before2 after s d i h
      exact ⟨op :: earlier, by simp [he], hsk⟩

theorem GuardedRun.idle (skipFn : FileInfo → Path → Path → Except Err Bool) (w : World) :
    GuardedRun skipFn w w := ⟨[], by simp, Guarded.nil⟩

theorem GuardedRun.followedBy {skipFn : FileInfo → Path → Path → Except Err Bool} {w1 w2 w3 : World}
    (h12 : GuardedRun skipFn w1 w2) (h23 : GuardedRun skipFn w2 w3) : GuardedRun skipFn w1 w3 := by
  obtain ⟨s1, e1, g1⟩ := h12
  obtain ⟨s2, e2, g2⟩ := h23
  exact ⟨s1 ++ s2, by rw [e2, e1, List.append_assoc], g1.append g2⟩

theorem Op.quiet_of_isPrim (op : Op) (h : op.isPrim = true) : op.quiet := by
  intro s d i hop
  subst hop
  simp [Op.isPrim] at h

theorem GuardedRun.of_steps {skipFn : FileInfo → Path → Path → Except Err Bool} {w1 w2 : World}
    (h : Steps Op.quiet w1 w2) : GuardedRun skipFn w1 w2 := by
  obtain ⟨s, e, o⟩ := h
  exact ⟨s, e, Guarded.of_quiet o⟩

theorem DispatchRun.of_guarded {skipFn : FileInfo → Path → Path → Except Err Bool} {src dest : Path}
    {info : FileInfo} {w w2 : World}
    (h : GuardedRun skipFn (w.emit (Op.switchboard src dest info)) w2) :
    DispatchRun skipFn src dest info w w2 := by
  obtain ⟨s, e, g⟩ := h
  exact ⟨s, by rw [e]; simp [World.emit], g⟩

theorem copyNextOrSkipWith_guarded (sb : Switch) (opt : Options)
    (skipFn : FileInfo → Path → Path → Except Err Bool) (hskip : opt.Skip = some skipFn)
    (hsb : ∀ src dest info p ibp w err w2, sb src dest info opt p ibp w = some (err, w2) →
      DispatchRun skipFn src dest info w w2)
    (src dest : Path) (info : FileInfo) (p : Bool) (ibp : Path) (w : World) (err : Option Err)
    (w2 : World) (h : copyNextOrSkipWith sb src dest info opt p ibp w = some (err, w2)) :
    GuardedRun skipFn w w2 := by
  unfold copyNextOrSkipWith at h
  rw [hskip] at h
  simp only [] at h
  cases hs : skipFn info src dest with
  | error e =>
    rw [hs] at h
    simp only [Option.some.injEq, Prod.mk.injEq] at h
    obtain ⟨-, rfl⟩ := h
    exact GuardedRun.of_steps (Steps.one _ (by intro s d i hc; cases hc))
  | ok b =>
    rw [hs] at h
    cases b with
    | true =>
      simp only [Option.some.injEq, Prod.mk.injEq] at h
      obtain ⟨-, rfl⟩ := h
      exact GuardedRun.of_steps (Steps.one _ (by intro s d i hc; cases hc))
    | false =>
      simp only [] at h
      obtain ⟨rest, e, g⟩ := hsb _ _ _ _ _ _ _ _ h
      exact ⟨Op.Skip info src dest :: Op.switchboard src dest info :: rest,
        by rw [e]; simp [World.emit], Guarded.dispatch info src dest rest hs g⟩

theorem dcopyLoop_guarded (sb : Switch) (opt : Options)
    (skipFn : FileInfo → Path → Path → Except Err Bool) (hskip : opt.Skip = some skipFn)
    (hsb : ∀ src dest info p ibp w err w2, sb src dest info opt p ibp w = some (err, w2) →
      DispatchRun skipFn src dest info w w2)
    (srcdir destdir : Path) (p : Bool) (ibp : Path) (contents : List FileInfo) :
    ∀ (w : World) (err : Option Err) (w2 : World),
      dcopyLoop sb srcdir destdir opt p ibp contents w = some (err, w2) → GuardedRun skipFn w w2 := by
  induction contents with
  | nil =>
    intro w err w2 h
    simp only [dcopyLoop, Option.some.injEq, Prod.mk.injEq] at h
    obtain ⟨-, rfl⟩ := h
    exact GuardedRun.idle skipFn w
  | cons content rest ih =>
    intro w err w2 h
    unfold dcopyLoop at h
    cases hc : copyNextOrSkipWith sb (Join srcdir content.Name) (Join destdir content.Name) content opt p ibp w with
    | none => rw [hc] at h; simp at h
    | some r =>
      obtain ⟨e1, w1⟩ := r
      have g1 := copyNextOrSkipWith_guarded sb opt skipFn hskip hsb _ _ _ _ _ _ _ _ hc
      rw [hc] at h
      cases e1 with
      | some e =>
        simp only [Option.some.injEq, Prod.mk.injEq] at h
        obtain ⟨-, rfl⟩ := h
        exact g1
      | none =>
        simp only [] at h
        refine g1.followedBy (GuardedRun.followedBy ?_ (ih _ _ _ h))
        cases p
        · exact GuardedRun.idle skipFn w1
        · exact GuardedRun.of_steps (Steps.one _ (by intro s d i hc; cases hc))

theorem Op.quiet_of_ne (op : Op) (h : op.isPrim = true ∨ (∃ i s d, op = Op.Skip i s d) ∨
    (∃ s, op = Op.OnSymlink s) ∨ (∃ s d, op = Op.OnDirExists s d) ∨
    (∃ i d, op = Op.PermissionControl i d) ∨ (∃ d, op = Op.chmodfunc d)) : op.quiet := by
  intro s d i hop
  subst hop
  simp [Op.isPrim] at h

theorem dcopyBody_guarded (sb : Switch) (os : Faults) (opt : Options)
    (skipFn : FileInfo → Path → Path → Except Err Bool) (hskip : opt.Skip = some skipFn)
    (hsb : ∀ src dest info p ibp w err w2, sb src dest info opt p ibp w = some (err, w2) →
      DispatchRun skipFn src dest info w w2)
    (srcdir destdir : Path) (info : FileInfo) (p : Bool) (ibp : Path) (w : World)
    (err : Option Err) (w2 : World)
    (h : dcopyBody sb os srcdir destdir info opt p ibp w = some (err, w2)) :
    GuardedRun skipFn w w2 := by
  unfold dcopyBody at h
  have h1 : Steps Op.quiet w (ioutil_ReadDir os srcdir w).2 :=
    sys_steps _ os _ _ w (Op.quiet_of_isPrim _ rfl)
  generalize ioutil_ReadDir os srcdir w = xr1 at *
  obtain ⟨r1, w1⟩ := xr1
  cases r1 with
  | error e =>
    simp only [Option.some.injEq, Prod.mk.injEq] at h
    obtain ⟨-, rfl⟩ := h
    exact GuardedRun.of_steps h1
  | ok contents =>
    simp only [] at h
    have h2 : Steps Op.quiet w1 (if p = true then
          (if info.IsDir = true then (w1.emit (.progress (.ChangeMax contents.length))).emit
              (.progress (.Describe (Rel ibp srcdir)))
            else w1.emit (.progress (.ChangeMax contents.length)))
          else w1) := by
      cases p
      · exact Steps.stay _ _
      · cases info.IsDir
        · exact Steps.one _ (Op.quiet_of_isPrim _ rfl)
        · exact Steps.andThen
            (Steps.one w1.fs (Op.quiet_of_isPrim (.progress (.ChangeMax contents.length)) rfl))
            (Steps.one _ (Op.quiet_of_isPrim _ rfl))
    generalize (if p = true then
          (if info.IsDir = true then (w1.emit (.progress (.ChangeMax contents.length))).emit
              (.progress (.Describe (Rel ibp srcdir)))
            else w1.emit (.progress (.ChangeMax contents.length)))
          else w1) = w1b at *
    cases hl : dcopyLoop sb srcdir destdir opt p ibp contents w1b with
    | none => rw [hl] at h; simp at h
    | some r =>
      obtain ⟨e2, w3⟩ := r
      have g := dcopyLoop_guarded sb opt skipFn hskip hsb srcdir destdir p ibp contents _ _ _ hl
      rw [hl] at h
      cases e2 with
      | some e =>
        simp only [Option.some.injEq, Prod.mk.injEq] at h
        obtain ⟨-, rfl⟩ := h
        exact ((GuardedRun.of_steps h1).followedBy (GuardedRun.of_steps h2)).followedBy g
      | none =>
        simp only [Option.some.injEq] at h
        have h3 := dcopyPreserve_steps (Op.quiet) os srcdir destdir info opt w3
          Op.quiet_of_isPrim
        rw [h] at h3
        exact (((GuardedRun.of_steps h1).followedBy (GuardedRun.of_steps h2)).followedBy g).followedBy
          (GuardedRun.of_steps h3)

theorem dcopyWith_guarded (sb : Switch) (os : Faults) (opt : Options)
    (skipFn : FileInfo → Path → Path → Except Err Bool) (hskip : opt.Skip = some skipFn)
    (hsb : ∀ src dest info p ibp w err w2, sb src dest info opt p ibp w = some (err, w2) →
      DispatchRun skipFn src dest info w w2)
    (srcdir destdir : Path) (info : FileInfo) (p : Bool) (ibp : Path) (w : World)
    (err : Option Err) (w2 : World)
    (h : dcopyWith sb os srcdir destdir info opt p ibp w = some (err, w2)) :
    GuardedRun skipFn w w2 := by
  unfold dcopyWith at h
  have h1 := onDirExists_steps (Op.quiet) os opt srcdir destdir w Op.quiet_of_isPrim
    (by intro s d i hc; cases hc)
  generalize onDirExists os opt srcdir destdir w = xr1 at *
  obtain ⟨⟨skip, e1⟩, w1⟩ := xr1
  cases e1 with
  | some e =>
    simp only [Option.some.injEq, Prod.mk.injEq] at h
    obtain ⟨-, rfl⟩ := h
    exact GuardedRun.of_steps h1
  | none =>
    cases skip with
    | true =>
      simp only [Option.some.injEq, Prod.mk.injEq] at h
      obtain ⟨-, rfl⟩ := h
      exact GuardedRun.of_steps h1
    | false =>
      simp only [] at h
      generalize opt.PermissionControl info destdir w1.fs = xr2 at *
      obtain ⟨r2, fs1⟩ := xr2
      cases r2 with
      | error e =>
        simp only [Option.some.injEq, Prod.mk.injEq] at h
        obtain ⟨-, rfl⟩ := h
        exact (GuardedRun.of_steps h1).followedBy
          (GuardedRun.of_steps (Steps.one _ (by intro s d i hc; cases hc)))
      | ok chmodfunc =>
        simp only [] at h
        cases hb : dcopyBody sb os srcdir destdir info opt p ibp
            (World.mk fs1 (w1.log ++ [Op.PermissionControl info destdir])) with
        | none => rw [hb] at h; simp at h
        | some r =>
          obtain ⟨e3, w3⟩ := r
          rw [hb] at h
          simp only [Option.some.injEq, Prod.mk.injEq] at h
          obtain ⟨-, rfl⟩ := h
          have g := dcopyBody_guarded sb os opt skipFn hskip hsb _ _ _ _ _ _ _ _ hb
          exact (((GuardedRun.of_steps h1).followedBy
            (GuardedRun.of_steps (Steps.one (w := w1) fs1 (by intro s d i hc; cases hc)))).followedBy g).followedBy
            (GuardedRun.of_steps (Steps.one _ (by intro s d i hc; cases hc)))

theorem onsymlinkWith_guarded (sb : Switch) (os : Faults) (opt : Options)
    (skipFn : FileInfo → Path → Path → Except Err Bool) (hskip : opt.Skip = some skipFn)
    (hsb : ∀ src dest info p ibp w err w2, sb src dest info opt p ibp w = some (err, w2) →
      DispatchRun skipFn src dest info w w2)
    (src dest : Path) (w : World) (err : Option Err) (w2 : World)
    (h : onsymlinkWith sb os src dest opt w = some (err, w2)) :
    GuardedRun skipFn w w2 := by
  unfold onsymlinkWith at h
  have h0 : Steps Op.quiet w (w.emit (Op.OnSymlink src)) := Steps.one _ (by intro s d i hc; cases hc)
  generalize w.emit (Op.OnSymlink src) = w0 at *
  generalize opt.OnSymlink src = act at h
  cases act with
  | Shallow =>
    simp only [] at h
    have h1 := lcopy_steps (Op.quiet) os src dest w0 Op.quiet_of_isPrim
    generalize lcopy os src dest w0 = xr1 at *
    obtain ⟨r1, w1⟩ := xr1
    cases r1 with
    | some e =>
      simp only [Option.some.injEq, Prod.mk.injEq] at h
      obtain ⟨-, rfl⟩ := h
      exact GuardedRun.of_steps (h0.andThen h1)
    | none =>
      simp only [] at h
      generalize opt.PreserveTimes = pt at h
      cases pt with
      | false =>
        simp only [Bool.false_eq_true, if_false, Option.some.injEq, Prod.mk.injEq] at h
        obtain ⟨-, rfl⟩ := h
        exact GuardedRun.of_steps (h0.andThen h1)
      | true =>
        simp only [if_true, Option.some.injEq] at h
        have h2 := preserveLtimes_steps (Op.quiet) os src dest w1 Op.quiet_of_isPrim
        rw [h] at h2
        exact GuardedRun.of_steps ((h0.andThen h1).andThen h2)
  | Deep =>
    simp only [] at h
    have h1 : Steps Op.quiet w0 (os_Readlink os src w0).2 :=
      sys_steps _ os _ _ w0 (Op.quiet_of_isPrim _ rfl)
    generalize os_Readlink os src w0 = xr1 at *
    obtain ⟨r1, w1⟩ := xr1
    cases r1 with
    | error e =>
      simp only [Option.some.injEq, Prod.mk.injEq] at h
      obtain ⟨-, rfl⟩ := h
      exact GuardedRun.of_steps (h0.andThen h1)
    | ok orig =>
      simp only [] at h
      have h2 : Steps Op.quiet w1 (os_Lstat os orig w1).2 :=
        sys_steps _ os _ _ w1 (Op.quiet_of_isPrim _ rfl)
      generalize os_Lstat os orig w1 = xr2 at *
      obtain ⟨r2, w3⟩ := xr2
      cases r2 with
      | error e =>
        simp only [Option.some.injEq, Prod.mk.injEq] at h
        obtain ⟨-, rfl⟩ := h
        exact GuardedRun.of_steps ((h0.andThen h1).andThen h2)
      | ok info =>
        simp only [] at h
        exact (GuardedRun.of_steps ((h0.andThen h1).andThen h2)).followedBy
          (copyNextOrSkipWith_guarded sb opt skipFn hskip hsb _ _ _ _ _ _ _ _ h)
  | Skip =>
    simp only [Option.some.injEq, Prod.mk.injEq] at h
    obtain ⟨-, rfl⟩ := h
    exact GuardedRun.of_steps h0
  | other n =>
    simp only [Option.some.injEq, Prod.mk.injEq] at h
    obtain ⟨-, rfl⟩ := h
    exact GuardedRun.of_steps h0

theorem switchboard_guarded (os : Faults) (opt : Options)
    (skipFn : FileInfo → Path → Path → Except Err Bool) (hskip : opt.Skip = some skipFn)
    (fuel : Nat) : ∀ src dest info p ibp w err w2,
      switchboard os fuel src dest info opt p ibp w = some (err, w2) →
      DispatchRun skipFn src dest info w w2 := by
  induction fuel with
  | zero =>
    intro src dest info p ibp w err w2 h
    simp [switchboard] at h
  | succ n ih =>
    intro src dest info p ibp w err w2 h
    simp only [switchboard, switchboardStep] at h
    apply DispatchRun.of_guarded
    split at h
    · simp only [Option.some.injEq, Prod.mk.injEq] at h
      obtain ⟨-, rfl⟩ := h
      exact GuardedRun.idle _ _
    · split at h
      · exact onsymlinkWith_guarded _ os opt skipFn hskip ih _ _ _ _ _ h
      · split at h
        · exact dcopyWith_guarded _ os opt skipFn hskip ih _ _ _ _ _ _ _ _ h
        · split at h
          · simp only [Option.some.injEq] at h
            have h1 := pcopy_steps (Op.quiet) os dest info
              (w.emit (Op.switchboard src dest info)) Op.quiet_of_isPrim
            rw [h] at h1
            exact GuardedRun.of_steps h1
          · simp only [Option.some.injEq] at h
            have h1 := fcopy_steps (Op.quiet) os src dest info opt
              (w.emit (Op.switchboard src dest info)) Op.quiet_of_isPrim
              (by intro s d i hc; cases hc) (by intro s d i hc; cases hc)
            rw [h] at h1
            exact GuardedRun.of_steps h1

/-- C4 (amended): with a skip predicate configured, every entry that `switchboard` dispatches
during a `Copy`, other than the top-level source entry, was handed to the predicate with its
source and destination paths immediately before, and the predicate answered "proceed". The
top-level entry itself is dispatched after `Lstat` (and the creation of the progress bar)
only, without the predicate being asked. -/
theorem Copy_dispatch_guarded (os : Faults) (fuel : Nat) (src dest : Path) (opt : Options)
    (skipFn : FileInfo → Path → Path → Except Err Bool) (w : World) (err : Option Err) (w2 : World)
    (hskip : opt.Skip = some skipFn)
    (h : Copy os fuel src dest opt w = some (err, w2)) :
    ∃ before after, w2.log = w.log ++ before ++ after ∧
      (∀ op ∈ before, op.isPrim = true) ∧
      (after = [] ∨ ∃ info rest, after = Op.switchboard src dest info :: rest ∧
        DispatchGuarded skipFn rest) := by
  unfold Copy at h
  have h1 : (os_Lstat os src w).2.log = w.log ++ [Op.Lstat src] := sys_log os _ _ w
  generalize os_Lstat os src w = xr at *
  obtain ⟨r, w1⟩ := xr
  simp only at h1
  cases r with
  | error e =>
    simp only [Option.some.injEq, Prod.mk.injEq] at h
    obtain ⟨-, rfl⟩ := h
    exact ⟨[Op.Lstat src], [], by simp [h1], by simp [Op.isPrim], Or.inl rfl⟩
  | ok info =>
    simp only [] at h
    have hs : (assureOptions src dest opt).Skip = some skipFn := hskip
    split at h
    · cases hsw : switchboard os fuel src dest info (assureOptions src dest opt) true (Dir src)
          (w1.emit (.progress (.Default src))) with
      | none => rw [hsw] at h; simp at h
      | some r2 =>
        obtain ⟨e2, w3⟩ := r2
        rw [hsw] at h
        simp only [Option.some.injEq, Prod.mk.injEq] at h
        obtain ⟨-, rfl⟩ := h
        obtain ⟨rest, hl, hg⟩ := switchboard_guarded os _ skipFn hs fuel _ _ _ _ _ _ _ _ hsw
        refine ⟨[Op.Lstat src, Op.progress (.Default src)],
          Op.switchboard src dest info :: (rest ++ [Op.progress (.Describe [Base src]),
            Op.progress .Add, Op.progress .Finish]), ?_, ?_, Or.inr ⟨info, _, rfl, ?_⟩⟩
        · simp [World.emit, hl, h1]
        · intro op hop
          simp only [List.mem_cons, List.mem_singleton, List.not_mem_nil, or_false] at hop
          rcases hop with rfl | rfl <;> rfl
        · exact (hg.append (Guarded.of_quiet (by
            intro op hop s d i
            simp only [List.mem_cons, List.mem_singleton, List.not_mem_nil, or_false] at hop
            rcases hop with rfl | rfl | rfl <;> (intro hc; cases hc)))).dispatchGuarded
    · obtain ⟨rest, hl, hg⟩ := switchboard_guarded os _ skipFn hs fuel _ _ _ _ _ _ _ _ h
      refine ⟨[Op.Lstat src], Op.switchboard src dest info :: rest, ?_, ?_,
        Or.inr ⟨info, _, rfl, hg.dispatchGuarded⟩⟩
      · simp [hl, h1]
      · intro op hop
        simp only [List.mem_singleton] at hop
        subst hop
        rfl

theorem Op.chmodWithin_of_ne {dest : Path} {op : Op} (h : ∀ d, op ≠ Op.chmodfunc d) :
    op.chmodWithin dest := fun d hd => absurd hd (h d)

theorem Op.chmodBelow_of_ne {dest : Path} {op : Op} (h : ∀ d, op ≠ Op.chmodfunc d) :
    op.chmodBelow dest := fun d hd => absurd hd (h d)

theorem Op.chmodWithin_of_isPrim (dest : Path) (op : Op) (h : op.isPrim = true) :
    op.chmodWithin dest := by
  intro d hd
  subst hd
  simp [Op.isPrim] at h

theorem Op.chmodBelow_of_isPrim (dest : Path) (op : Op) (h : op.isPrim = true) :
    op.chmodBelow dest := by
  intro d hd
  subst hd
  simp [Op.isPrim] at h

theorem Op.chmodBelow_of_within_child {dest : Path} {name : String} {op : Op}
    (h : op.chmodWithin (Join dest name)) : op.chmodBelow dest := by
  intro d hd
  have h1 := h d hd
  unfold Join at h1
  refine ⟨(List.prefix_append dest [name]).trans h1, ?_⟩
  rintro rfl
  have := h1.length_le
  simp at this

theorem Op.chmodWithin_of_below {dest : Path} {op : Op} (h : op.chmodBelow dest) :
    op.chmodWithin dest := fun d hd => (h d hd).1

theorem copyNextOrSkipWith_chmod (sb : Switch) (opt : Options)
    (hsb : ∀ src dest info p ibp w err w2, sb src dest info opt p ibp w = some (err, w2) →
      Steps (Op.chmodWithin dest) w w2)
    (src dest : Path) (info : FileInfo) (p : Bool) (ibp : Path) (w : World) (err : Option Err)
    (w2 : World) (h : copyNextOrSkipWith sb src dest info opt p ibp w = some (err, w2)) :
    Steps (Op.chmodWithin dest) w w2 := by
  unfold copyNextOrSkipWith at h
  cases hs : opt.Skip with
  | none =>
    rw [hs] at h
    exact hsb _ _ _ _ _ _ _ _ h
  | some skipFn =>
    rw [hs] at h
    simp only [] at h
    have h0 : Steps (Op.chmodWithin dest) w (w.emit (Op.Skip info src dest)) :=
      Steps.one _ (Op.chmodWithin_of_ne (by intro d hc; cases hc))
    generalize skipFn info src dest = r at h
    cases r with
    | error e =>
      simp only [Option.some.injEq, Prod.mk.injEq] at h
      obtain ⟨-, rfl⟩ := h
      exact h0
    | ok b =>
      cases b with
      | true =>
        simp only [Option.some.injEq, Prod.mk.injEq] at h
        obtain ⟨-, rfl⟩ := h
        exact h0
      | false => exact h0.andThen (hsb _ _ _ _ _ _ _ _ h)

theorem dcopyLoop_chmod (sb : Switch) (opt : Options)
    (hsb : ∀ src dest info p ibp w err w2, sb src dest info opt p ibp w = some (err, w2) →
      Steps (Op.chmodWithin dest) w w2)
    (srcdir destdir : Path) (p : Bool) (ibp : Path) (contents : List FileInfo) :
    ∀ (w : World) (err : Option Err) (w2 : World),
      dcopyLoop sb srcdir destdir opt p ibp contents w = some (err, w2) →
      Steps (Op.chmodBelow destdir) w w2 := by
  induction contents with
  | nil =>
    intro w err w2 h
    simp only [dcopyLoop, Option.some.injEq, Prod.mk.injEq] at h
    obtain ⟨-, rfl⟩ := h
    exact Steps.stay _ w
  | cons content rest ih =>
    intro w err w2 h
    unfold dcopyLoop at h
    cases hc : copyNextOrSkipWith sb (Join srcdir content.Name) (Join destdir content.Name) content opt p ibp w with
    | none => rw [hc] at h; simp at h
    | some r =>
      obtain ⟨e1, w1⟩ := r
      have g1 := (copyNextOrSkipWith_chmod sb opt hsb _ _ _ _ _ _ _ _ hc).mono
        (fun op => Op.chmodBelow_of_within_child)
      rw [hc] at h
      cases e1 with
      | some e =>
        simp only [Option.some.injEq, Prod.mk.injEq] at h
        obtain ⟨-, rfl⟩ := h
        exact g1
      | none =>
        simp only [] at h
        refine g1.andThen (Steps.andThen ?_ (ih _ _ _ h))
        cases p
        · exact Steps.stay _ w1
        · exact Steps.one _ (Op.chmodBelow_of_isPrim _ _ rfl)

theorem dcopyBody_chmod (sb : Switch) (os : Faults) (opt : Options)
    (hsb : ∀ src dest info p ibp w err w2, sb src dest info opt p ibp w = some (err, w2) →
      Steps (Op.chmodWithin dest) w w2)
    (srcdir destdir : Path) (info : FileInfo) (p : Bool) (ibp : Path) (w : World)
    (err : Option Err) (w2 : World)
    (h : dcopyBody sb os srcdir destdir info opt p ibp w = some (err, w2)) :
    Steps (Op.chmodBelow destdir) w w2 := by
  unfold dcopyBody at h
  have h1 : Steps (Op.chmodBelow destdir) w (ioutil_ReadDir os srcdir w).2 :=
    sys_steps _ os _ _ w (Op.chmodBelow_of_isPrim _ _ rfl)
  generalize ioutil_ReadDir os srcdir w = xr1 at *
  obtain ⟨r1, w1⟩ := xr1
  cases r1 with
  | error e =>
    simp only [Option.some.injEq, Prod.mk.injEq] at h
    obtain ⟨-, rfl⟩ := h
    exact h1
  | ok contents =>
    simp only [] at h
    have h2 : Steps (Op.chmodBelow destdir) w1 (if p = true then
          (if info.IsDir = true then (w1.emit (.progress (.ChangeMax contents.length))).emit
              (.progress (.Describe (Rel ibp srcdir)))
            else w1.emit (.progress (.ChangeMax contents.length)))
          else w1) := by
      cases p
      · exact Steps.stay _ _
      · cases info.IsDir
        · exact Steps.one _ (Op.chmodBelow_of_isPrim _ _ rfl)
        · exact Steps.andThen
            (Steps.one w1.fs (Op.chmodBelow_of_isPrim _ (.progress (.ChangeMax contents.length)) rfl))
            (Steps.one _ (Op.chmodBelow_of_isPrim _ _ rfl))
    generalize (if p = true then
          (if info.IsDir = true then (w1.emit (.progress (.ChangeMax contents.length))).emit
              (.progress (.Describe (Rel ibp srcdir)))
            else w1.emit (.progress (.ChangeMax contents.length)))
          else w1) = w1b at *
    cases hl : dcopyLoop sb srcdir destdir opt p ibp contents w1b with
    | none => rw [hl] at h; simp at h
    | some r =>
      obtain ⟨e2, w3⟩ := r
      have g := dcopyLoop_chmod sb opt hsb srcdir destdir p ibp contents _ _ _ hl
      rw [hl] at h
      cases e2 with
      | some e =>
        simp only [Option.some.injEq, Prod.mk.injEq] at h
        obtain ⟨-, rfl⟩ := h
        exact (h1.andThen h2).andThen g
      | none =>
        simp only [Option.some.injEq] at h
        have h3 := dcopyPreserve_steps (Op.chmodBelow destdir) os srcdir destdir info opt w3
          (Op.chmodBelow_of_isPrim _)
        rw [h] at h3
        exact ((h1.andThen h2).andThen g).andThen h3

/-- What `dcopy` does once the permission decision has been computed: the body runs, then
the deferred action, and the trace of the body holds no deferred action of this directory. -/
theorem dcopyWith_shape (sb : Switch) (os : Faults) (opt : Options)
    (hsb : ∀ src dest info p ibp w err w2, sb src dest info opt p ibp w = some (err, w2) →
      Steps (Op.chmodWithin dest) w w2)
    (srcdir destdir : Path) (info : FileInfo) (p : Bool) (ibp : Path) (w w1 : World)
    (act : ChmodFunc) (fs1 : FS) (err : Option Err) (w2 : World)
    (hexists : onDirExists os opt srcdir destdir w = ((false, none), w1))
    (hperm : opt.PermissionControl info destdir w1.fs = (.ok act, fs1))
    (h : dcopyWith sb os srcdir destdir info opt p ibp w = some (err, w2)) :
    ∃ before body eb wb,
      dcopyBody sb os srcdir destdir info opt p ibp
        (World.mk fs1 (w1.log ++ [Op.PermissionControl info destdir])) = some (eb, wb) ∧
      w1.log = w.log ++ before ∧
      (∀ op ∈ before, op.isPrim = true ∨ op = Op.OnDirExists srcdir destdir) ∧
      wb.log = w1.log ++ [Op.PermissionControl info destdir] ++ body ∧
      (∀ op ∈ body, op.chmodBelow destdir) ∧
      err = (act eb wb.fs).1 ∧
      w2 = World.mk (act eb wb.fs).2 (wb.log ++ [Op.chmodfunc destdir]) := by
  have h1 := onDirExists_steps (fun op => op.isPrim = true ∨ op = Op.OnDirExists srcdir destdir)
    os opt srcdir destdir w (fun op hop => Or.inl hop) (Or.inr rfl)
  rw [hexists] at h1
  obtain ⟨before, hb1, hb2⟩ := h1
  unfold dcopyWith at h
  rw [hexists] at h
  simp only [hperm] at h
  cases hb : dcopyBody sb os srcdir destdir info opt p ibp
      (World.mk fs1 (w1.log ++ [Op.PermissionControl info destdir])) with
  | none => rw [hb] at h; simp at h
  | some r =>
    obtain ⟨eb, wb⟩ := r
    rw [hb] at h
    simp only [Option.some.injEq, Prod.mk.injEq] at h
    obtain ⟨he, hw⟩ := h
    obtain ⟨body, hbody1, hbody2⟩ := dcopyBody_chmod sb os opt hsb _ _ _ _ _ _ _ _ hb
    exact ⟨before, body, eb, wb, rfl, hb1, hb2, hbody1, hbody2, he.symm, hw.symm⟩

theorem dcopyWith_chmod (sb : Switch) (os : Faults) (opt : Options)
    (hsb : ∀ src dest info p ibp w err w2, sb src dest info opt p ibp w = some (err, w2) →
      Steps (Op.chmodWithin dest) w w2)
    (srcdir destdir : Path) (info : FileInfo) (p : Bool) (ibp : Path) (w : World)
    (err : Option Err) (w2 : World)
    (h : dcopyWith sb os srcdir destdir info opt p ibp w = some (err, w2)) :
    Steps (Op.chmodWithin destdir) w w2 := by
  have h1 := onDirExists_steps (Op.chmodWithin destdir) os opt srcdir destdir w
    (Op.chmodWithin_of_isPrim _) (Op.chmodWithin_of_ne (by intro d hc; cases hc))
  rcases hx : onDirExists os opt srcdir destdir w with ⟨⟨skip, e1⟩, w1⟩
  rw [hx] at h1
  cases e1 with
  | some e =>
    unfold dcopyWith at h
    rw [hx] at h
    simp only [Option.some.injEq, Prod.mk.injEq] at h
    obtain ⟨-, rfl⟩ := h
    exact h1
  | none =>
    cases skip with
    | true =>
      unfold dcopyWith at h
      rw [hx] at h
      simp only [Option.some.injEq, Prod.mk.injEq] at h
      obtain ⟨-, rfl⟩ := h
      exact h1
    | false =>
      rcases hp : opt.PermissionControl info destdir w1.fs with ⟨r2, fs1⟩
      cases r2 with
      | error e =>
        unfold dcopyWith at h
        rw [hx] at h
        simp only [hp, Option.some.injEq, Prod.mk.injEq] at h
        obtain ⟨-, rfl⟩ := h
        exact h1.andThen (Steps.one _ (Op.chmodWithin_of_ne (by intro d hc; cases hc)))
      | ok act =>
        obtain ⟨before, body, eb, wb, -, -, -, hbody1, hbody2, -, rfl⟩ :=
          dcopyWith_shape sb os opt hsb srcdir destdir info p ibp w w1 act fs1 err w2 hx hp h
        refine h1.andThen ⟨[Op.PermissionControl info destdir] ++ body ++ [Op.chmodfunc destdir], ?_, ?_⟩
        · simp only [hbody1, List.append_assoc]
        · intro op hop
          simp only [List.append_assoc, List.mem_append, List.mem_singleton] at hop
          rcases hop with rfl | hop | rfl
          · exact Op.chmodWithin_of_ne (by intro d hc; cases hc)
          · exact Op.chmodWithin_of_below (hbody2 op hop)
          · intro d hd
            cases hd
            exact List.prefix_refl _

theorem onsymlinkWith_chmod (sb : Switch) (os : Faults) (opt : Options)
    (hsb : ∀ src dest info p ibp w err w2, sb src dest info opt p ibp w = some (err, w2) →
      Steps (Op.chmodWithin dest) w w2)
    (src dest : Path) (w : World) (err : Option Err) (w2 : World)
    (h : onsymlinkWith sb os src dest opt w = some (err, w2)) :
    Steps (Op.chmodWithin dest) w w2 := by
  unfold onsymlinkWith at h
  have h0 : Steps (Op.chmodWithin dest) w (w.emit (Op.OnSymlink src)) :=
    Steps.one _ (Op.chmodWithin_of_ne (by intro d hc; cases hc))
  generalize w.emit (Op.OnSymlink src) = w0 at *
  generalize opt.OnSymlink src = act at h
  cases act with
  | Shallow =>
    simp only [] at h
    have h1 := lcopy_steps (Op.chmodWithin dest) os src dest w0 (Op.chmodWithin_of_isPrim _)
    generalize lcopy os src dest w0 = xr1 at *
    obtain ⟨r1, w1⟩ := xr1
    cases r1 with
    | some e =>
      simp only [Option.some.injEq, Prod.mk.injEq] at h
      obtain ⟨-, rfl⟩ := h
      exact h0.andThen h1
    | none =>
      simp only [] at h
      generalize opt.PreserveTimes = pt at h
      cases pt with
      | false =>
        simp only [Bool.false_eq_true, if_false, Option.some.injEq, Prod.mk.injEq] at h
        obtain ⟨-, rfl⟩ := h
        exact h0.andThen h1
      | true =>
        simp only [if_true, Option.some.injEq] at h
        have h2 := preserveLtimes_steps (Op.chmodWithin dest) os src dest w1
          (Op.chmodWithin_of_isPrim _)
        rw [h] at h2
        exact (h0.andThen h1).andThen h2
  | Deep =>
    simp only [] at h
    have h1 : Steps (Op.chmodWithin dest) w0 (os_Readlink os src w0).2 :=
      sys_steps _ os _ _ w0 (Op.chmodWithin_of_isPrim _ _ rfl)
    generalize os_Readlink os src w0 = xr1 at *
    obtain ⟨r1, w1⟩ := xr1
    cases r1 with
    | error e =>
      simp only [Option.some.injEq, Prod.mk.injEq] at h
      obtain ⟨-, rfl⟩ := h
      exact h0.andThen h1
    | ok orig =>
      simp only [] at h
      have h2 : Steps (Op.chmodWithin dest) w1 (os_Lstat os orig w1).2 :=
        sys_steps _ os _ _ w1 (Op.chmodWithin_of_isPrim _ _ rfl)
      generalize os_Lstat os orig w1 = xr2 at *
      obtain ⟨r2, w3⟩ := xr2
      cases r2 with
      | error e =>
        simp only [Option.some.injEq, Prod.mk.injEq] at h
        obtain ⟨-, rfl⟩ := h
        exact (h0.andThen h1).andThen h2
      | ok info =>
        simp only [] at h
        exact ((h0.andThen h1).andThen h2).andThen
          (copyNextOrSkipWith_chmod sb opt hsb _ _ _ _ _ _ _ _ h)
  | Skip =>
    simp only [Option.some.injEq, Prod.mk.injEq] at h
    obtain ⟨-, rfl⟩ := h
    exact h0
  | other n =>
    simp only [Option.some.injEq, Prod.mk.injEq] at h
    obtain ⟨-, rfl⟩ := h
    exact h0

theorem switchboard_chmod (os : Faults) (opt : Options) (fuel : Nat) :
    ∀ src dest info p ibp w err w2,
      switchboard os fuel src dest info opt p ibp w = some (err, w2) →
      Steps (Op.chmodWithin dest) w w2 := by
  induction fuel with
  | zero =>
    intro src dest info p ibp w err w2 h
    simp [switchboard] at h
  | succ n ih =>
    intro src dest info p ibp w err w2 h
    simp only [switchboard, switchboardStep] at h
    have h0 : Steps (Op.chmodWithin dest) w (w.emit (Op.switchboard src dest info)) :=
      Steps.one _ (Op.chmodWithin_of_ne (by intro d hc; cases hc))
    refine h0.andThen ?_
    split at h
    · simp only [Option.some.injEq, Prod.mk.injEq] at h
      obtain ⟨-, rfl⟩ := h
      exact Steps.stay _ _
    · split at h
      · exact onsymlinkWith_chmod _ os opt ih _ _ _ _ _ h
      · split at h
        · exact dcopyWith_chmod _ os opt ih _ _ _ _ _ _ _ _ h
        · split at h
          · simp only [Option.some.injEq] at h
            have h1 := pcopy_steps (Op.chmodWithin dest) os dest info
              (w.emit (Op.switchboard src dest info)) (Op.chmodWithin_of_isPrim _)
            rw [h] at h1
            exact h1
          · simp only [Option.some.injEq] at h
            have h1 := fcopy_steps (Op.chmodWithin dest) os src dest info opt
              (w.emit (Op.switchboard src dest info)) (Op.chmodWithin_of_isPrim _)
              (Op.chmodWithin_of_ne (by intro d hc; cases hc))
              (by intro d hd; cases hd; exact List.prefix_refl _)
            rw [h] at h1
            exact h1

/-- C10: in `dcopy`, once the permission decision for the destination directory has been
computed, its deferred action is run exactly once, as the very last step: nothing is
dispatched before the decision is computed, and every child processed and the preservation
of the directory's times and owner lie between the computation and the action, whose only
occurrence is the last operation of the call. -/
theorem dcopy_deferred_action_last (os : Faults) (fuel : Nat) (srcdir destdir : Path)
    (info : FileInfo) (opt : Options) (p : Bool) (ibp : Path) (w w1 : World)
    (act : ChmodFunc) (fs1 : FS)
    (hexists : onDirExists os opt srcdir destdir w = ((false, none), w1))
    (hperm : opt.PermissionControl info destdir w1.fs = (.ok act, fs1))
    (hret : dcopy os fuel srcdir destdir info opt p ibp w ≠ none) :
    ∃ before body eb wb err w2,
      dcopy os fuel srcdir destdir info opt p ibp w = some (err, w2) ∧
      dcopyBody (switchboard os fuel) os srcdir destdir info opt p ibp
        (World.mk fs1 (w1.log ++ [Op.PermissionControl info destdir])) = some (eb, wb) ∧
      (err, w2.fs) = act eb wb.fs ∧
      w2.log = w.log ++ before ++ [Op.PermissionControl info destdir] ++ body ++ [Op.chmodfunc destdir] ∧
      wb.log = w.log ++ before ++ [Op.PermissionControl info destdir] ++ body ∧
      (∀ op ∈ before, ∀ s d i, op ≠ Op.switchboard s d i ∧ op ≠ Op.Skip i s d) ∧
      Op.chmodfunc destdir ∉ before ++ [Op.PermissionControl info destdir] ++ body ∧
      (before ++ [Op.PermissionControl info destdir] ++ body ++ [Op.chmodfunc destdir]).count
        (Op.chmodfunc destdir) = 1 := by
  rcases hd : dcopy os fuel srcdir destdir info opt p ibp w with _ | ⟨err, w2⟩
  · exact absurd hd hret
  · obtain ⟨before, body, eb, wb, hb, hb1, hb2, hbody1, hbody2, he, hw⟩ :=
      dcopyWith_shape (switchboard os fuel) os opt (switchboard_chmod os opt fuel) srcdir destdir
        info p ibp w w1 act fs1 err w2 hexists hperm hd
    have hnot : Op.chmodfunc destdir ∉ before ++ [Op.PermissionControl info destdir] ++ body := by
      intro hmem
      simp only [List.append_assoc, List.mem_append, List.mem_singleton] at hmem
      rcases hmem with hm | hm | hm
      · rcases hb2 _ hm with hp | hp
        · simp [Op.isPrim] at hp
        · cases hp
      · cases hm
      · exact (hbody2 _ hm destdir rfl).2 rfl
    refine ⟨before, body, eb, wb, err, w2, rfl, hb, ?_, ?_, ?_, ?_, hnot, ?_⟩
    · rw [hw, he]
    · rw [hw]; simp only [hbody1, hb1, List.append_assoc]
    · simp only [hbody1, hb1, List.append_assoc]
    · intro op hop s d i
      rcases hb2 _ hop with hp | hp
      · constructor
        · rintro rfl; simp [Op.isPrim] at hp
        · rintro rfl; simp [Op.isPrim] at hp
      · subst hp
        exact ⟨(by intro hc; cases hc), (by intro hc; cases hc)⟩
    · rw [List.count_append, List.count_eq_zero_of_not_mem hnot]
      simp


/-- C6 (as stated, refuted): the destination `out/` exists, the resolver answers
`Untouchable` for it, and `Copy` of the directory `a/` onto `out/` returns success, yet the
name `out/x.txt` has been added under the destination: the resolver is not asked about the
destination of the top-level call. The nested directory `out/b/`, for which it is asked, is
left as it was. -/
theorem Copy_top_level_untouchable_ignored :
    mergedFS.get ["out"] = some (Node.dir 493) ∧
    untouchableOptions.OnDirExists.map (fun resolve => resolve ["a"] ["out"]) =
      some DirExistsAction.Untouchable ∧
    mergedFS.get ["out", "x.txt"] = none ∧
    (Copy noFaults 3 ["a"] ["out"] untouchableOptions mergedWorld).map
        (fun r => (r.1, r.2.fs.get ["out", "x.txt"], r.2.fs.get ["out", "b", "y.txt"],
          r.2.fs.get ["out", "b", "keep.txt"])) =
      some (none, some (Node.file 420 [104, 105]), none, some (Node.file 420 [107])) := by
  decide

theorem onDirExists_untouchable (os : Faults) (opt : Options) (srcdir destdir : Path) (w : World)
    (resolve : Path → Path → DirExistsAction)
    (hstat : (os_Stat os destdir w).1.isOk = true)
    (hres : opt.OnDirExists = some resolve)
    (hact : resolve srcdir destdir = DirExistsAction.Untouchable)
    (htop : destdir ≠ opt.intent.dest) :
    onDirExists os opt srcdir destdir w =
      ((true, none), World.mk w.fs (w.log ++ [Op.Stat destdir, Op.OnDirExists srcdir destdir])) := by
  unfold onDirExists
  have hw := os_Stat_world os destdir w
  rcases hst : os_Stat os destdir w with ⟨r, w1⟩
  rw [hst] at hw hstat
  simp only at hw
  subst hw
  cases r with
  | error e => simp [Except.isOk, Except.toBool] at hstat
  | ok i => simp [hres, htop, hact, World.emit]

/-- C6 (amended): when `Stat` of the destination directory succeeds, a resolver is
configured and selects `Untouchable`, and the destination is not the destination of the
top-level call, `dcopy` returns success after the probe and the call of the resolver only:
the filesystem, hence every name and every byte under that destination, is unchanged. -/
theorem dcopy_untouchable (os : Faults) (fuel : Nat) (srcdir destdir : Path) (info : FileInfo)
    (opt : Options) (p : Bool) (ibp : Path) (w : World)
    (resolve : Path → Path → DirExistsAction)
    (hstat : (os_Stat os destdir w).1.isOk = true)
    (hres : opt.OnDirExists = some resolve)
    (hact : resolve srcdir destdir = DirExistsAction.Untouchable)
    (htop : destdir ≠ opt.intent.dest) :
    dcopy os fuel srcdir destdir info opt p ibp w =
        some (none, World.mk w.fs (w.log ++ [Op.Stat destdir, Op.OnDirExists srcdir destdir])) ∧
      ∀ w2, dcopy os fuel srcdir destdir info opt p ibp w = some (none, w2) →
        ∀ q, w2.fs.get q = w.fs.get q := by
  have heq : dcopy os fuel srcdir destdir info opt p ibp w =
      some (none, World.mk w.fs (w.log ++ [Op.Stat destdir, Op.OnDirExists srcdir destdir])) := by
    unfold dcopy dcopyWith
    rw [onDirExists_untouchable os opt srcdir destdir w resolve hstat hres hact htop]
  refine ⟨heq, fun w2 h2 q => ?_⟩
  rw [heq] at h2
  simp only [Option.some.injEq, Prod.mk.injEq, true_and] at h2
  subst h2
  rfl

theorem dcopy_untouchable_witness :
    dcopy noFaults 0 ["a", "b"] ["out", "b"] infoB (assureOptions ["a"] ["out"] untouchableOptions)
        false [] mergedWorld =
        some (none, World.mk mergedWorld.fs
          (mergedWorld.log ++ [Op.Stat ["out", "b"], Op.OnDirExists ["a", "b"] ["out", "b"]])) ∧
      ∀ w2, dcopy noFaults 0 ["a", "b"] ["out", "b"] infoB
          (assureOptions ["a"] ["out"] untouchableOptions) false [] mergedWorld = some (none, w2) →
        ∀ q, w2.fs.get q = mergedWorld.fs.get q :=
  dcopy_untouchable noFaults 0 ["a", "b"] ["out", "b"] infoB
    (assureOptions ["a"] ["out"] untouchableOptions) false [] mergedWorld
    (fun _ _ => DirExistsAction.Untouchable) (by decide) rfl rfl (by decide)


/-- C4 (as stated, refuted): the skip predicate asks to skip every entry, yet `Copy` of the
file `a/x.txt` dispatches it and copies it: the predicate is never called for the top-level
entry. -/
theorem Copy_top_level_not_filtered :
    skipEverything infoX ["a", "x.txt"] ["out", "x.txt"] = .ok true ∧
    (Copy noFaults 1 ["a", "x.txt"] ["out", "x.txt"] skipEverythingOptions sampleWorld).map
        (fun r => (r.1, r.2.log, r.2.fs.get ["out", "x.txt"])) =
      some (none,
        [Op.Lstat ["a", "x.txt"], Op.switchboard ["a", "x.txt"] ["out", "x.txt"] infoX,
          Op.MkdirAll ["out"], Op.Create ["out", "x.txt"],
          Op.PermissionControl infoX ["out", "x.txt"], Op.chmodfunc ["out", "x.txt"],
          Op.Open ["a", "x.txt"], Op.CopyBuffer ["out", "x.txt"] ["a", "x.txt"] 0,
          Op.Close ["a", "x.txt"], Op.Close ["out", "x.txt"]],
        some (Node.file 420 [104, 105])) :=
  ⟨rfl, by decide⟩

theorem Copy_dispatch_guarded_witness :
    ∃ before after, skipNamedBResult.log = sampleWorld.log ++ before ++ after ∧
      (∀ op ∈ before, op.isPrim = true) ∧
      (after = [] ∨ ∃ info rest, after = Op.switchboard ["a"] ["out"] info :: rest ∧
        DispatchGuarded skipNamedB rest) :=
  Copy_dispatch_guarded noFaults 3 ["a"] ["out"] skipNamedBOptions skipNamedB sampleWorld none
    skipNamedBResult rfl (by decide)

theorem onDirExists_contract_witness :
    (onDirExists noFaults untouchableOptions ["a", "b"] ["out", "b"] mergedWorld).1 = (true, none) ∧
    (onDirExists noFaults untouchableOptions ["a", "b"] ["out", "b"] mergedWorld).2.fs = mergedFS :=
  ((onDirExists_contract noFaults untouchableOptions ["a", "b"] ["out", "b"] mergedWorld).2.1
    (fun _ _ => DirExistsAction.Untouchable) (by decide) rfl (by decide)).2.1 rfl

theorem dcopy_deferred_action_last_witness :
    ∃ before body err w2,
      dcopy noFaults 2 ["a"] ["out"] infoA plainOptions false [] sampleWorld = some (err, w2) ∧
      w2.log = sampleWorld.log ++ before ++ [Op.PermissionControl infoA ["out"]] ++ body ++
        [Op.chmodfunc ["out"]] ∧
      Op.chmodfunc ["out"] ∉ before ++ [Op.PermissionControl infoA ["out"]] ++ body := by
  obtain ⟨before, body, eb, wb, err, w2, h1, -, -, h4, -, -, h7, -⟩ :=
    dcopy_deferred_action_last noFaults 2 ["a"] ["out"] infoA plainOptions false [] sampleWorld
      (World.mk sampleFS [Op.Stat ["out"]]) (chmodAction ["out"] 493) (listedWorld plainOptions).fs
      (by decide) (by rfl) (by decide)
  exact ⟨before, body, err, w2, h1, h4, h7⟩

end GoCopy
